import Mathlib

set_option autoImplicit false

/-!
# goldmark: the renderer dispatcher and the setext heading block parser

A shallow embedding of `renderer/renderer.go` and `parser/setext_headings.go`.

* Mutable Go objects become explicit state: the renderer struct is a value
  that every method returns updated, the outside world touched by node
  renderers and writers is an abstract state `σ`, and the AST edited by the
  block parser is an arena of nodes addressed by references.
* A Go panic is an explicit `Outcome.panicked`.
* The calls that `Render` itself makes (SetOption, NodeRenderer.Render, Flush)
  are recorded, in order, in a trace of `Event`s.
-/

/-! ## Go run-time -/

/-- Run-time faults with which a Go call panics instead of returning. -/
inductive Fault
  | nilDereference
  | indexOutOfRange
  | typeAssertion
  deriving DecidableEq, Repr

/-- Either the value a call returned, or the fault it panicked with. -/
inductive Outcome (α : Type)
  | returned (a : α)
  | panicked (f : Fault)
  deriving DecidableEq, Repr

/-- Sequencing of calls: a panic aborts everything that follows. -/
def Outcome.bind {α β : Type} : Outcome α → (α → Outcome β) → Outcome β
  | .returned a, k => k a
  | .panicked f, _ => .panicked f

/-- A byte of the source buffer. -/
abbrev Byte := Nat

/-- A non-nil Go `error` value. `NotSupported` is the sentinel
`renderer.NotSupported`; every other error is a `failure`. The nil error is
`none : Option GoError`. -/
inductive GoError
  | NotSupported
  | failure (msg : String)
  deriving DecidableEq, Repr

/-! ## Package ast, as seen by the renderer -/

namespace ast

/-- Modelled from the spec: the statuses of the visitor contract ("continue
traversal, skip children, stop entirely"); package ast is not among the
sources. `WalkUnset` is the zero value of the Go type, the value of a declared
and never assigned `var s ast.WalkStatus`; it is none of the three statuses. -/
inductive WalkStatus
  | WalkUnset
  | WalkStop
  | WalkSkipChildren
  | WalkContinue
  deriving DecidableEq, Repr

/-- Modelled from the spec: an AST node as the renderer reads it, a tag that
identifies the node together with its ordered children. -/
inductive Node
  | mk (tag : Nat) (children : List Node)

/-- The visitor handed to `Walk`, over a walk state `ω`. -/
abbrev Walker (ω : Type) := Node → Bool → ω → Outcome (WalkStatus × Option GoError) × ω

/-- How the walk of a subtree ended. -/
inductive WalkEnd
  | done
  | stopped
  | failed (e : GoError)
  | fault (f : Fault)
  deriving DecidableEq, Repr

mutual
/-- Modelled from the spec: the depth-first walk of one subtree (ast.Walk is
not among the sources): an entering call before the children, a leaving call
after them; an error from the visitor aborts the whole walk, `WalkStop` stops
it entirely, `WalkSkipChildren` skips the children of the node. -/
def walkNode {ω : Type} (walker : Walker ω) : Node → ω → WalkEnd × ω
  | .mk tag cs, st =>
    match walker (.mk tag cs) true st with
    | (.panicked f, st1) => (.fault f, st1)
    | (.returned (_, some e), st1) => (.failed e, st1)
    | (.returned (.WalkStop, none), st1) => (.stopped, st1)
    | (.returned (status, none), st1) =>
      match (if status = .WalkSkipChildren then (WalkEnd.done, st1)
             else walkChildren walker cs st1) with
      | (.done, st2) =>
        match walker (.mk tag cs) false st2 with
        | (.panicked f, st3) => (.fault f, st3)
        | (.returned (_, some e), st3) => (.failed e, st3)
        | (.returned (.WalkStop, none), st3) => (.stopped, st3)
        | (.returned (_, none), st3) => (.done, st3)
      | r => r
/-- The walk of a list of siblings, first to last. -/
def walkChildren {ω : Type} (walker : Walker ω) : List Node → ω → WalkEnd × ω
  | [], st => (.done, st)
  | c :: cs, st =>
    match walkNode walker c st with
    | (.done, st1) => walkChildren walker cs st1
    | r => r
end

/-- Modelled from the spec: `ast.Walk(n, walker)` returns the error that
aborted the walk, or nil when the walk ended (completed or stopped) without
one. -/
def Walk {ω : Type} (n : Node) (walker : Walker ω) (st : ω) : Outcome (Option GoError) × ω :=
  match walkNode walker n st with
  | (.done, st1) => (.returned none, st1)
  | (.stopped, st1) => (.returned none, st1)
  | (.failed e, st1) => (.returned (some e), st1)
  | (.fault f, st1) => (.panicked f, st1)

end ast

/-! ## Package util, as used by the renderer -/

namespace util

/-- Modelled from the spec: a registered value with its priority
(util.PrioritizedValue is not among the sources). -/
structure PrioritizedValue (α : Type) where
  Value : α
  Priority : Int

/-- Modelled from the spec: `PrioritizedSlice.Sort`, "sort the registered
serializers by priority (stable)", lower priority value first (package util is
not among the sources). An insertion sort that places an element before the
later elements of equal priority, hence stable. -/
def PrioritizedSlice.Sort {α : Type} (s : List (PrioritizedValue α)) : List (PrioritizedValue α) :=
  s.insertionSort (fun a b => a.Priority ≤ b.Priority)

end util

/-! ## Package renderer -/

/-- An OptionName is a name of the option. -/
abbrev OptionName := String

/-- `NodeRenderer.Render(writer, source, n, entering)` as a transformer of the
world state `σ`, which holds the writer's buffer and whatever else the node
renderer touches. -/
abbrev NodeRenderer (σ : Type) := σ → List Byte → ast.Node → Bool → (ast.WalkStatus × Option GoError) × σ

/-- `SetOptioner.SetOption(name, value)` as a transformer of the world state. -/
abbrev SetOptioner (σ V : Type) := OptionName → V → σ → σ

/-- A value registered with `WithNodeRenderers`. Its static type is
`interface{}`: it may or may not implement NodeRenderer, and may or may not
implement SetOptioner. -/
structure Registered (σ V : Type) where
  asNodeRenderer : Option (NodeRenderer σ)
  asSetOptioner : Option (SetOptioner σ V)

/-- A Go map from option names to values, as an association list with one entry
per name. Ranging over the map visits the entries in list order (Go leaves the
order unspecified). -/
abbrev OptionMap (V : Type) := List (OptionName × V)

/-- The assignment `m[name] = value`. -/
def OptionMap.set {V : Type} : OptionMap V → OptionName → V → OptionMap V
  | [], name, value => [(name, value)]
  | (k, v) :: rest, name, value =>
    if k = name then (k, value) :: rest else (k, v) :: OptionMap.set rest name value

/-- The lookup `m[name]`. -/
def OptionMap.get {V : Type} : OptionMap V → OptionName → Option V
  | [], _ => none
  | (k, v) :: rest, name => if k = name then some v else OptionMap.get rest name

/-- A Config struct is a data structure that holds configuration of the Renderer. -/
structure Config (σ V : Type) where
  Options : OptionMap V
  NodeRenderers : List (util.PrioritizedValue (Registered σ V))

/-- NewConfig returns a new Config. -/
def NewConfig {σ V : Type} : Config σ V :=
  { Options := [], NodeRenderers := [] }

/-- The functional options of the renderer (Go interface `Option`): the two
implementations `withNodeRenderers` and `withOption`. -/
inductive RendererOption (σ V : Type)
  | withNodeRenderers (value : List (util.PrioritizedValue (Registered σ V)))
  | withOption (name : OptionName) (value : V)

/-- The body of the two `SetConfig` methods on a config that is not nil:
`c.NodeRenderers = append(c.NodeRenderers, o.value...)` and
`c.Options[o.name] = o.value`. -/
def RendererOption.apply {σ V : Type} (o : RendererOption σ V) (c : Config σ V) : Config σ V :=
  match o with
  | .withNodeRenderers value => { c with NodeRenderers := c.NodeRenderers ++ value }
  | .withOption name value => { c with Options := c.Options.set name value }

/-- `o.SetConfig(c)` on a `*Config` that may be nil: both implementations
dereference `c` first. -/
def RendererOption.SetConfig {σ V : Type} (o : RendererOption σ V) :
    Option (Config σ V) → Outcome (Config σ V)
  | none => .panicked .nilDereference
  | some c => .returned (o.apply c)

/-- The renderer struct. `config` is a `*Config` (nil is `none`), a nil entry
of `nodeRenderers` is `none`, and `initDone` is the state of `initSync`. -/
structure renderer (σ V : Type) where
  config : Option (Config σ V)
  options : OptionMap V
  nodeRenderers : List (Option (NodeRenderer σ))
  initDone : Bool

/-- NewRenderer returns a new Renderer with given options. -/
def NewRenderer {σ V : Type} (options : List (RendererOption σ V)) : renderer σ V :=
  { config := some (options.foldl (fun c opt => opt.apply c) NewConfig)
    options := []
    nodeRenderers := []
    initDone := false }

/-- `r.AddOption(o)`: the renderer afterwards, and the fault if the call
panicked. A panic in SetConfig precedes every write, so it leaves the renderer
as it was. -/
def renderer.AddOption {σ V : Type} (r : renderer σ V) (o : RendererOption σ V) :
    renderer σ V × Option Fault :=
  match o.SetConfig r.config with
  | .returned c => ({ r with config := some c }, none)
  | .panicked f => (r, some f)

/-- The calls Render makes on its collaborators, in the order it makes them.
The index of `setOption` is the position of the value in the sorted
`config.NodeRenderers`, that of `render` the position in `r.nodeRenderers`. -/
inductive Event (V : Type)
  | setOption (i : Nat) (name : OptionName) (value : V)
  | render (i : Nat) (n : ast.Node) (entering : Bool)
  | flush

/-- The inner loop of the setup: `se.SetOption(oname, ovalue)` for every entry
of the options map. -/
def propagateOptions {σ V : Type} (se : SetOptioner σ V) (i : Nat) :
    OptionMap V → σ × List (Event V) → σ × List (Event V)
  | [], w => w
  | (oname, ovalue) :: rest, (st, tr) =>
    propagateOptions se i rest (se oname ovalue st, tr ++ [.setOption i oname ovalue])

/-- The outer loop of the setup over the sorted registrations, from position
`i` on: option propagation to the SetOptioners, and the chain built by append. -/
def collectNodeRenderers {σ V : Type} (options : OptionMap V) :
    List (util.PrioritizedValue (Registered σ V)) → Nat → List (Option (NodeRenderer σ)) →
    σ × List (Event V) → List (Option (NodeRenderer σ)) × (σ × List (Event V))
  | [], _, chain, w => (chain, w)
  | v :: vs, i, chain, w =>
    let w1 := match v.Value.asSetOptioner with
      | some se => propagateOptions se i options w
      | none => w
    collectNodeRenderers options vs (i + 1) (chain ++ [v.Value.asNodeRenderer]) w1

/-- The function passed to `r.initSync.Do`. With a nil config its first
statement panics and nothing is written. -/
def renderer.setup {σ V : Type} (r : renderer σ V) (w : σ × List (Event V)) :
    Outcome Unit × renderer σ V × (σ × List (Event V)) :=
  match r.config with
  | none => (.panicked .nilDereference, r, w)
  | some c =>
    let options := c.Options
    let sorted := util.PrioritizedSlice.Sort c.NodeRenderers
    let (chain, w1) := collectNodeRenderers options sorted 0 [] w
    (.returned (), { r with config := none, options := options, nodeRenderers := chain }, w1)

/-- `r.initSync.Do(setup)`: the setup runs only if the Once has not fired, and
the Once has fired afterwards (also when the setup panicked). -/
def renderer.initOnce {σ V : Type} (r : renderer σ V) (w : σ × List (Event V)) :
    Outcome Unit × renderer σ V × (σ × List (Event V)) :=
  if r.initDone then (.returned (), r, w)
  else
    match r.setup w with
    | (o, r1, w1) => (o, { r1 with initDone := true }, w1)

/-- The loop of the visitor over the chain, from position `i` on, with the
current values of its variables `s` and `err`. Calling a nil NodeRenderer
panics. -/
def renderer.dispatch {σ V : Type} (source : List Byte) (n : ast.Node) (entering : Bool) :
    List (Option (NodeRenderer σ)) → Nat → ast.WalkStatus → Option GoError →
    σ × List (Event V) → Outcome (ast.WalkStatus × Option GoError) × (σ × List (Event V))
  | [], _, s, err, w => (.returned (s, err), w)
  | none :: _, _, _, _, w => (.panicked .nilDereference, w)
  | some nr :: rest, i, _, _, (st, tr) =>
    match nr st source n entering with
    | ((s, err), st1) =>
      if err = some GoError.NotSupported then
        renderer.dispatch source n entering rest (i + 1) s err (st1, tr ++ [.render i n entering])
      else
        (.returned (s, err), (st1, tr ++ [.render i n entering]))

/-- The visitor Render hands to `ast.Walk`: `s` and `err` start as zero values,
then the loop over `r.nodeRenderers`. -/
def renderer.visitor {σ V : Type} (r : renderer σ V) (source : List Byte) :
    ast.Walker (σ × List (Event V)) :=
  fun n entering w => renderer.dispatch source n entering r.nodeRenderers 0 .WalkUnset none w

/-- The `io.Writer` handed to Render. Either it is a `util.BufWriter` already,
or Render wraps it with `bufio.NewWriter`; in both cases what Render uses of it
is the `Flush` of the resulting buffered writer. -/
inductive IOWriter (σ : Type)
  | bufWriter (Flush : σ → Option GoError × σ)
  | plain (wrappedFlush : σ → Option GoError × σ)

/-- The `Flush` of the writer Render works with (lines 141 to 144). -/
def IOWriter.Flush {σ : Type} : IOWriter σ → σ → Option GoError × σ
  | .bufWriter f => f
  | .plain f => f

/-- What a call of Render leaves behind: the renderer, the world, the calls
made, and the error returned (or the fault). -/
structure RenderResult (σ V : Type) where
  r : renderer σ V
  world : σ
  trace : List (Event V)
  outcome : Outcome (Option GoError)

/-- Render renders given AST node to given writer with given Renderer. -/
def renderer.Render {σ V : Type} (r : renderer σ V) (w : IOWriter σ) (source : List Byte)
    (n : ast.Node) (st : σ) : RenderResult σ V :=
  match r.initOnce (st, []) with
  | (.panicked f, r1, (st1, tr1)) => { r := r1, world := st1, trace := tr1, outcome := .panicked f }
  | (.returned _, r1, w1) =>
    match ast.Walk n (r1.visitor source) w1 with
    | (.panicked f, (st2, tr2)) => { r := r1, world := st2, trace := tr2, outcome := .panicked f }
    | (.returned (some err), (st2, tr2)) =>
      { r := r1, world := st2, trace := tr2, outcome := .returned (some err) }
    | (.returned none, (st2, tr2)) =>
      match w.Flush st2 with
      | (ferr, st3) => { r := r1, world := st3, trace := tr2 ++ [.flush], outcome := .returned ferr }

/-! ## Go slices -/

/-- The slice expression `b[lo:hi]`; it panics unless `0 ≤ lo ≤ hi ≤ len(b)`. -/
def goSlice (b : List Byte) (lo hi : Int) : Outcome (List Byte) :=
  if 0 ≤ lo ∧ lo ≤ hi ∧ hi ≤ (b.length : Int) then
    .returned ((b.take hi.toNat).drop lo.toNat)
  else .panicked .indexOutOfRange

/-- The index expression `b[i]`; it panics unless `0 ≤ i < len(b)`. -/
def goIndex {α : Type} (b : List α) (i : Int) : Outcome α :=
  if 0 ≤ i then
    match b[i.toNat]? with
    | some c => .returned c
    | none => .panicked .indexOutOfRange
  else .panicked .indexOutOfRange

/-! ## Package util, as used by the parser -/

namespace util

/-- Modelled from the spec: `TrimLeftLength(source, s)`, the length of the
leading run of bytes of `source` that occur in `s` ("leading-space count",
"count a run of `=`"); package util is not among the sources. -/
def TrimLeftLength (source s : List Byte) : Nat :=
  (source.takeWhile (fun c => s.contains c)).length

/-- Modelled from the spec: `IsSpace(c)`, whether the byte is whitespace:
space, tab, line feed, vertical tab, form feed or carriage return. -/
def IsSpace (c : Byte) : Bool :=
  c == 32 || c == 9 || c == 10 || c == 11 || c == 12 || c == 13

/-- Modelled from the spec: `TrimLeftSpaceLength(source)`, the length of the
leading run of whitespace. -/
def TrimLeftSpaceLength (source : List Byte) : Nat :=
  (source.takeWhile IsSpace).length

/-- Modelled from the spec: `TrimRightSpaceLength(source)`, the length of the
trailing run of whitespace ("ignoring trailing whitespace"). -/
def TrimRightSpaceLength (source : List Byte) : Nat :=
  (source.reverse.takeWhile IsSpace).length

end util

/-! ## Package text -/

namespace text

/-- Modelled from the spec: a Segment, "a (start, stop) half-open range into
the Source Buffer"; a value type (package text is not among the sources). -/
structure Segment where
  Start : Int
  Stop : Int
  deriving DecidableEq, Repr

/-- Modelled from the spec: `Value(buffer)`, "materialize the underlying
substring", the slice `buffer[t.Start:t.Stop]`. -/
def Segment.Value (t : Segment) (buffer : List Byte) : Outcome (List Byte) :=
  goSlice buffer t.Start t.Stop

/-- Modelled from the spec: `TrimLeftSpace(buffer)`, the segment without its
leading whitespace, returned as a new value. -/
def Segment.TrimLeftSpace (t : Segment) (buffer : List Byte) : Outcome Segment :=
  (t.Value buffer).bind fun v =>
    .returned { Start := t.Start + (util.TrimLeftSpaceLength v : Int), Stop := t.Stop }

/-- Modelled from the spec: `TrimRightSpace(buffer)`, the segment without its
trailing whitespace, returned as a new value; the receiver is not changed. -/
def Segment.TrimRightSpace (t : Segment) (buffer : List Byte) : Outcome Segment :=
  (t.Value buffer).bind fun v =>
    .returned { Start := t.Start, Stop := t.Stop - (util.TrimRightSpaceLength v : Int) }

/-- Modelled from the spec: the reader interface, "a reader positioned at the
line with peek/advance operations", given by what its two methods used here
return: the source buffer, and the current line with its segment. -/
structure Reader where
  Source : List Byte
  PeekLine : List Byte × Segment

end text

/-! ## Package ast, as edited by the parser -/

namespace ast

/-- A reference to a node of the tree under construction (a Go pointer). -/
abbrev NodeRef := Nat

/-- Modelled from the spec: the block kinds, a "tagged variant over block
kinds (Document, Paragraph, Heading{level}, …)". -/
inductive NodeKind
  | Document
  | Paragraph
  | Heading (Level : Int)
  | Other (tag : Nat)
  deriving DecidableEq, Repr

/-- Modelled from the spec: what a block node owns: a line collection,
ordered children, an attribute mapping, the "has blank line before" flag, and
the back-link to its parent. -/
structure Block where
  kind : NodeKind
  lines : List text.Segment
  blankPreviousLines : Bool
  attributes : List (List Byte × List Byte)
  parent : Option NodeRef
  children : List NodeRef
  deriving DecidableEq, Repr

/-- The nodes allocated so far: the block behind every reference, and the
first reference not yet in use. -/
structure Tree where
  node : NodeRef → Block
  fresh : NodeRef

/-- A node as its constructor returns it: no lines, no attributes, detached. -/
def newBlock (kind : NodeKind) : Block :=
  { kind := kind, lines := [], blankPreviousLines := false, attributes := [],
    parent := none, children := [] }

/-- Allocation of a new node of the given kind. -/
def Tree.alloc (t : Tree) (kind : NodeKind) : Tree × NodeRef :=
  ({ node := Function.update t.node t.fresh (newBlock kind), fresh := t.fresh + 1 }, t.fresh)

/-- `ast.NewHeading(level)`. -/
def Tree.NewHeading (t : Tree) (level : Int) : Tree × NodeRef :=
  t.alloc (.Heading level)

/-- `ast.NewParagraph()`. -/
def Tree.NewParagraph (t : Tree) : Tree × NodeRef :=
  t.alloc .Paragraph

/-- An in-place change of the node behind `v`. -/
def Tree.modify (t : Tree) (v : NodeRef) (f : Block → Block) : Tree :=
  { t with node := Function.update t.node v (f (t.node v)) }

/-- `v.Lines().Append(segment)`. -/
def Tree.AppendLine (t : Tree) (v : NodeRef) (segment : text.Segment) : Tree :=
  t.modify v fun b => { b with lines := b.lines ++ [segment] }

/-- `v.Lines().Unshift(segment)`: the segment becomes the first line. -/
def Tree.UnshiftLine (t : Tree) (v : NodeRef) (segment : text.Segment) : Tree :=
  t.modify v fun b => { b with lines := segment :: b.lines }

/-- `v.SetLines(lines)`; with no lines it is `v.Lines().Clear()`. -/
def Tree.SetLines (t : Tree) (v : NodeRef) (lines : List text.Segment) : Tree :=
  t.modify v fun b => { b with lines := lines }

/-- `v.Lines().Set(i, segment)`; it panics when `i` is out of range. -/
def Tree.SetLineAt (t : Tree) (v : NodeRef) (i : Int) (segment : text.Segment) : Outcome Tree :=
  if 0 ≤ i ∧ i < ((t.node v).lines.length : Int) then
    .returned (t.modify v fun b => { b with lines := b.lines.set i.toNat segment })
  else .panicked .indexOutOfRange

/-- `v.SetBlankPreviousLines(flag)`. -/
def Tree.SetBlankPreviousLines (t : Tree) (v : NodeRef) (flag : Bool) : Tree :=
  t.modify v fun b => { b with blankPreviousLines := flag }

/-- The assignment of one attribute in an attribute mapping: an existing
entry of that name is overwritten, otherwise the entry is added. -/
def setAttr : List (List Byte × List Byte) → List Byte → List Byte → List (List Byte × List Byte)
  | [], name, value => [(name, value)]
  | (k, v) :: rest, name, value =>
    if k = name then (name, value) :: rest else (k, v) :: setAttr rest name value

/-- The lookup of one attribute. -/
def getAttr : List (List Byte × List Byte) → List Byte → Option (List Byte)
  | [], _ => none
  | (k, v) :: rest, name => if k = name then some v else getAttr rest name

/-- `v.SetAttribute(name, value)`. -/
def Tree.SetAttribute (t : Tree) (v : NodeRef) (name value : List Byte) : Tree :=
  t.modify v fun b => { b with attributes := setAttr b.attributes name value }

/-- The element that follows `v` in a list of siblings, if any. -/
def nextAfter (v : NodeRef) : List NodeRef → Option NodeRef
  | [] => none
  | [_] => none
  | a :: b :: rest => if a = v then some b else nextAfter v (b :: rest)

/-- `v.NextSibling()`: read off the children of the parent of `v`. -/
def Tree.NextSibling (t : Tree) (v : NodeRef) : Option NodeRef :=
  match (t.node v).parent with
  | none => none
  | some p => nextAfter v (t.node p).children

/-- A list of siblings with `insertee` put right after `v1` (at the end when
`v1` is the last one or is absent). -/
def insertAfterIn (v1 insertee : NodeRef) : List NodeRef → List NodeRef
  | [] => [insertee]
  | a :: rest => if a = v1 then a :: insertee :: rest else a :: insertAfterIn v1 insertee rest

/-- Modelled from the spec: `self.InsertAfter(self, v1, insertee)`, the tree
edit "insert-after": `insertee` becomes the sibling following `v1` among the
children of `self`, with its parent back-link set. -/
def Tree.InsertAfter (t : Tree) (self v1 insertee : NodeRef) : Tree :=
  (t.modify self fun b => { b with children := insertAfterIn v1 insertee b.children }).modify
    insertee fun b => { b with parent := some self }

/-- Modelled from the spec: `self.RemoveChild(self, v)`, the tree edit
"remove-child": nothing happens unless `v` is a child of `self`; otherwise `v`
leaves the children of `self`, whose other children keep their order, and "a
node detached via remove-child has no parent". -/
def Tree.RemoveChild (t : Tree) (self v : NodeRef) : Tree :=
  if (t.node v).parent = some self then
    (t.modify self fun b => { b with children := b.children.filter (fun c => c ≠ v) }).modify
      v fun b => { b with parent := none }
  else t

end ast

/-! ## Package parser -/

namespace parser

/-- A key of the parse context's store. -/
abbrev ContextKey := Nat

/-- A value held in the parse context's store (Go `interface{}`): nil, a node,
or a payload of some other type. -/
inductive ContextValue
  | nil
  | node (v : ast.NodeRef)
  | other (tag : Nat)
  deriving DecidableEq, Repr

/-- Modelled from the spec: the Parse Context, "a typed key/value store" and
"a reference to the most recently opened block node" (nil is `none`). A key
that was never set reads as nil. -/
structure Context where
  store : ContextKey → ContextValue
  LastOpenedBlock : Option ast.NodeRef

/-- `pc.Get(key)`. -/
def Context.Get (pc : Context) (key : ContextKey) : ContextValue :=
  pc.store key

/-- `pc.Set(key, value)`. -/
def Context.Set (pc : Context) (key : ContextKey) (value : ContextValue) : Context :=
  { pc with store := Function.update pc.store key value }

/-- The key minted once by `NewContextKey()` at package initialisation for the
stashed paragraph; which number it is plays no role. -/
def temporaryParagraphKey : ContextKey := 0

/-- Modelled from the spec: the signals a block parser returns to the driver. -/
inductive State
  | Continue
  | Close
  | HasChildren
  | NoChildren
  deriving DecidableEq, Repr

/-- The two switches of `HeadingConfig` that the setext heading parser reads. -/
structure HeadingConfig where
  AutoHeadingID : Bool
  Attribute : Bool
  deriving DecidableEq, Repr

/-- The parser struct: it embeds HeadingConfig. -/
structure setextHeadingParser extends HeadingConfig

/-- The two collaborators of Close that are not among the sources, taken as
given: the attribute tokenizer `util.FindAttributeIndiciesReverse` (nil is
`none`, an index quadruple is a 4-tuple) and `generateAutoHeadingID`, which
edits the tree and the context. -/
structure Collaborators where
  FindAttributeIndiciesReverse : List Byte → Bool → Option (List (Int × Int × Int × Int))
  generateAutoHeadingID : ast.NodeRef → text.Reader → ast.Tree × Context → ast.Tree × Context

/-- The function `matchesSetextHeadingBar(line)`. -/
def matchesSetextHeadingBar (line : List Byte) : Outcome (Byte × Bool) :=
  let start : Int := 0
  let end_ : Int := line.length
  let space : Int := util.TrimLeftLength line [32]
  if space > 3 then .returned (0, false)
  else
    let start := start + space
    (goSlice line start end_).bind fun s1 =>
    let level1 : Int := util.TrimLeftLength s1 [61]
    (if level1 = 0 then
        (goSlice line start end_).bind fun s2 =>
          .returned (((util.TrimLeftLength s2 [45] : Nat) : Int), (45 : Byte))
      else .returned ((0 : Int), (61 : Byte))).bind fun lc =>
    (goIndex line (end_ - 1)).bind fun last =>
    (if util.IsSpace last then
        (goSlice line start end_).bind fun s3 =>
          .returned (end_ - (util.TrimRightSpaceLength s3 : Int))
      else .returned end_).bind fun end_ =>
    if ¬ ((level1 > 0 ∧ start + level1 = end_) ∨ (lc.1 > 0 ∧ start + lc.1 = end_)) then
      .returned (0, false)
    else .returned (lc.2, true)

/-- What a call of Open leaves behind: the node it returns (nil is `none`) and
the state, with the tree and the context after the call. -/
structure OpenResult where
  node : Option ast.NodeRef
  state : State
  tree : ast.Tree
  pc : Context

/-- The method `Open(parent, reader, pc)`. -/
def setextHeadingParser.Open (_b : setextHeadingParser) (t : ast.Tree) (parent : Option ast.NodeRef)
    (reader : text.Reader) (pc : Context) : Outcome OpenResult :=
  match pc.LastOpenedBlock with
  | none => .returned { node := none, state := .NoChildren, tree := t, pc := pc }
  | some last =>
    if ¬ (t.node last).kind = .Paragraph ∨ (t.node last).parent ≠ parent then
      .returned { node := none, state := .NoChildren, tree := t, pc := pc }
    else
      (matchesSetextHeadingBar reader.PeekLine.1).bind fun m =>
      if ¬ m.2 = true then
        .returned { node := none, state := .NoChildren, tree := t, pc := pc }
      else
        let level : Int := if m.1 = 45 then 2 else 1
        let (t1, node) := t.NewHeading level
        let t2 := t1.AppendLine node reader.PeekLine.2
        .returned { node := some node, state := .NoChildren, tree := t2,
                    pc := pc.Set temporaryParagraphKey (.node last) }

/-- The method `Continue(node, reader, pc)`. -/
def setextHeadingParser.Continue (_b : setextHeadingParser) (_node : ast.NodeRef)
    (_reader : text.Reader) (_pc : Context) : State :=
  .Close

/-- Lines 86 to 88 of Close: a new paragraph that holds the segment is
inserted after the heading. `heading.Parent()` is dereferenced. -/
def setextHeadingParser.insertParagraph (t : ast.Tree) (node : ast.NodeRef)
    (segment : text.Segment) : Outcome ast.Tree :=
  let (t1, para) := t.NewParagraph
  let t2 := t1.AppendLine para segment
  match (t2.node node).parent with
  | none => .panicked .nilDereference
  | some p => .returned (t2.InsertAfter p node para)

/-- Lines 85 to 91 of Close: the segment goes to a new paragraph after the
heading, or becomes the first line of the paragraph that follows the heading. -/
def setextHeadingParser.barToParagraph (t : ast.Tree) (node : ast.NodeRef)
    (next : Option ast.NodeRef) (segment : text.Segment) : Outcome ast.Tree :=
  match next with
  | none => setextHeadingParser.insertParagraph t node segment
  | some nx =>
    if ¬ (t.node nx).kind = ast.NodeKind.Paragraph then
      setextHeadingParser.insertParagraph t node segment
    else .returned (t.UnshiftLine nx segment)

/-- Lines 77 to 97 of Close: the stashed paragraph is taken from the context,
and either the bar line goes to a paragraph and the heading is removed (the
stashed paragraph has no lines), or the heading takes over the lines of the
stashed paragraph, which is removed. In Go the heading then shares the line
collection with the removed paragraph; here the heading gets its value. -/
def setextHeadingParser.closeBlock (t : ast.Tree) (node : ast.NodeRef) (reader : text.Reader)
    (pc : Context) : Outcome (ast.Tree × Context) :=
  match (t.node node).kind with
  | .Heading _ =>
    (goIndex (t.node node).lines 0).bind fun segment =>
    let t := t.SetLines node []
    match pc.Get temporaryParagraphKey with
    | .node tmp =>
      if (t.node tmp).kind = ast.NodeKind.Paragraph then
        let pc := pc.Set temporaryParagraphKey .nil
        if (t.node tmp).lines.length = 0 then
          let next := t.NextSibling node
          (segment.TrimLeftSpace reader.Source).bind fun segment =>
          (setextHeadingParser.barToParagraph t node next segment).bind fun t =>
          match (t.node node).parent with
          | none => .panicked .nilDereference
          | some p => .returned (t.RemoveChild p node, pc)
        else
          let t := t.SetLines node (t.node tmp).lines
          let t := t.SetBlankPreviousLines node (t.node tmp).blankPreviousLines
          match (t.node tmp).parent with
          | none => .panicked .nilDereference
          | some p => .returned (t.RemoveChild p tmp, pc)
      else .panicked .typeAssertion
    | _ => .panicked .typeAssertion
  | _ => .panicked .typeAssertion

/-- The loop of lines 105 to 107: one SetAttribute per index quadruple, in the
order of the list. -/
def setextHeadingParser.setAttributes (t : ast.Tree) (node : ast.NodeRef) (line : List Byte) :
    List (Int × Int × Int × Int) → Outcome ast.Tree
  | [] => .returned t
  | (k0, k1, v0, v1) :: rest =>
    (goSlice line k0 k1).bind fun name =>
    (goSlice line v0 v1).bind fun value =>
    setextHeadingParser.setAttributes (t.SetAttribute node name value) node line rest

/-- Lines 100 to 111 of Close, the attribute step. The result of the call
`lastLine.TrimRightSpace(reader.Source())` on line 109 is not used. -/
def setextHeadingParser.closeAttribute (ext : Collaborators) (t : ast.Tree) (node : ast.NodeRef)
    (reader : text.Reader) : Outcome ast.Tree :=
  let lastIndex : Int := ((t.node node).lines.length : Int) - 1
  (goIndex (t.node node).lines lastIndex).bind fun lastLine =>
  (lastLine.Value reader.Source).bind fun line =>
  match ext.FindAttributeIndiciesReverse line true with
  | none => .returned t
  | some indicies =>
    (setextHeadingParser.setAttributes t node line indicies).bind fun t =>
    (goIndex indicies 0).bind fun index0 =>
    let lastLine : text.Segment := { lastLine with Stop := lastLine.Start + index0.1 - 1 }
    (lastLine.TrimRightSpace reader.Source).bind fun _ =>
    t.SetLineAt node lastIndex lastLine

/-- The attribute name `id`, as bytes. -/
def idName : List Byte := [105, 100]

/-- Lines 114 to 119 of Close, the auto-ID step. -/
def setextHeadingParser.closeAutoID (ext : Collaborators) (t : ast.Tree) (node : ast.NodeRef)
    (reader : text.Reader) (pc : Context) : ast.Tree × Context :=
  match ast.getAttr (t.node node).attributes idName with
  | some _ => (t, pc)
  | none => ext.generateAutoHeadingID node reader (t, pc)

/-- The method `Close(node, reader, pc)`. -/
def setextHeadingParser.Close (b : setextHeadingParser) (ext : Collaborators) (t : ast.Tree)
    (node : ast.NodeRef) (reader : text.Reader) (pc : Context) : Outcome (ast.Tree × Context) :=
  (setextHeadingParser.closeBlock t node reader pc).bind fun tp =>
  (if b.Attribute then setextHeadingParser.closeAttribute ext tp.1 node reader
    else .returned tp.1).bind fun t1 =>
  if b.AutoHeadingID then .returned (setextHeadingParser.closeAutoID ext t1 node reader tp.2)
  else .returned (t1, tp.2)

/-- The method `CanInterruptParagraph()`. -/
def setextHeadingParser.CanInterruptParagraph (_b : setextHeadingParser) : Bool := true

/-- The method `CanAcceptIndentedLine()`. -/
def setextHeadingParser.CanAcceptIndentedLine (_b : setextHeadingParser) : Bool := false

end parser

/-! ## Vocabulary of the statements about the renderer -/

/-- The node renderers of `chain`, called one after the other from the world
`st` for the node `n` in direction `entering`, all return the sentinel
NotSupported. -/
def allNotSupported {σ : Type} (source : List Byte) (n : ast.Node) (entering : Bool) :
    List (NodeRenderer σ) → σ → Prop
  | [], _ => True
  | nr :: rest, st =>
    (nr st source n entering).1.2 = some GoError.NotSupported ∧
      allNotSupported source n entering rest (nr st source n entering).2

/-- The world after the node renderers of `chain` were called one after the
other from the world `st`. -/
def worldAfter {σ : Type} (source : List Byte) (n : ast.Node) (entering : Bool) :
    List (NodeRenderer σ) → σ → σ
  | [], st => st
  | nr :: rest, st => worldAfter source n entering rest (nr st source n entering).2

/-- The trace of `k` consecutive Render calls on the chain positions `i`,
`i + 1`, …, in this order. -/
def renderCalls {V : Type} (n : ast.Node) (entering : Bool) : Nat → Nat → List (Event V)
  | _, 0 => []
  | i, k + 1 => Event.render i n entering :: renderCalls n entering (i + 1) k

/-- Whether the event is a call of Flush. -/
def Event.isFlush {V : Type} : Event V → Bool
  | .flush => true
  | _ => false

/-- Whether the event is a call of SetOption. -/
def Event.isSetOption {V : Type} : Event V → Bool
  | .setOption _ _ _ => true
  | _ => false

/-- The renderers a program can hold: `renderer` is unexported, so every value
comes from NewRenderer followed by calls of AddOption and Render. -/
inductive renderer.Reachable {σ V : Type} : renderer σ V → Prop
  | new (options : List (RendererOption σ V)) : renderer.Reachable (NewRenderer options)
  | addOption (r : renderer σ V) (o : RendererOption σ V) :
      renderer.Reachable r → renderer.Reachable (r.AddOption o).1
  | render (r : renderer σ V) (w : IOWriter σ) (source : List Byte) (n : ast.Node) (st : σ) :
      renderer.Reachable r → renderer.Reachable (r.Render w source n st).r

/-- The arguments of one call of Render, with the world it starts in. -/
structure RenderCall (σ : Type) where
  w : IOWriter σ
  source : List Byte
  n : ast.Node
  st : σ

/-- A sequence of Render calls on one renderer: the result of every call, the
renderer being handed from each call to the next. -/
def renderAll {σ V : Type} (r : renderer σ V) : List (RenderCall σ) → List (RenderResult σ V)
  | [] => []
  | c :: cs => r.Render c.w c.source c.n c.st :: renderAll (r.Render c.w c.source c.n c.st).r cs

/-! ## Concrete inputs -/

/-- A node renderer that supports no node: it answers (WalkContinue,
NotSupported) and writes nothing. -/
def rejectingRenderer : NodeRenderer Unit :=
  fun st _ _ _ => ((ast.WalkStatus.WalkContinue, some GoError.NotSupported), st)

/-- A node renderer that claims every node: it answers (WalkContinue, nil). -/
def acceptingRenderer : NodeRenderer Unit :=
  fun st _ _ _ => ((ast.WalkStatus.WalkContinue, none), st)

/-- A node renderer that fails on every node with a real error. -/
def failingRenderer : NodeRenderer Unit :=
  fun st _ _ _ => ((ast.WalkStatus.WalkStop, some (GoError.failure "boom")), st)

/-- A registration of a node renderer that is no SetOptioner. -/
def register (nr : NodeRenderer Unit) (priority : Int) :
    util.PrioritizedValue (Registered Unit Nat) :=
  { Value := { asNodeRenderer := some nr, asSetOptioner := none }, Priority := priority }

/-- A buffered writer whose Flush succeeds. -/
def quietWriter : IOWriter Unit :=
  .bufWriter fun st => (none, st)

/-- A document with one child. -/
def smallDocument : ast.Node :=
  .mk 0 [.mk 1 []]

/-- A renderer whose only node renderer supports no node. -/
def rejectingOnly : renderer Unit Nat :=
  NewRenderer [.withNodeRenderers [register rejectingRenderer 0]]

/-- A renderer with a rejecting node renderer ahead of an accepting one. -/
def rejectThenAccept : renderer Unit Nat :=
  NewRenderer [.withNodeRenderers [register rejectingRenderer 0, register acceptingRenderer 1]]

/-- A renderer whose only node renderer fails. -/
def failingOnly : renderer Unit Nat :=
  NewRenderer [.withNodeRenderers [register failingRenderer 0]]

/-- A renderer without registrations. -/
def bareRenderer : renderer Unit Nat :=
  NewRenderer []

/-- One call of Render on the small document. -/
def smallCall : RenderCall Unit :=
  { w := quietWriter, source := [], n := smallDocument, st := () }

/-- The renderer with a rejecting node renderer ahead of an accepting one,
after a first call of Render. -/
def rejectThenAcceptReady : renderer Unit Nat :=
  (rejectThenAccept.Render quietWriter [] smallDocument ()).r

/-- A renderer with one option and one node renderer that is also a
SetOptioner. -/
def optionedRenderer : renderer Unit Nat :=
  NewRenderer [.withOption "k" 1,
    .withNodeRenderers [{ Value := { asNodeRenderer := some acceptingRenderer,
                                     asSetOptioner := some fun _ _ st => st },
                          Priority := 0 }]]

/-- The renderer without registrations, after a first call of Render. -/
def bareReady : renderer Unit Nat :=
  (bareRenderer.Render quietWriter [] smallDocument ()).r

/-- The source `Title`, line feed, `===`, line feed. -/
def titleSource : List Byte :=
  [84, 105, 116, 108, 101, 10, 61, 61, 61, 10]

/-- A document (node 0) whose only child is a paragraph (node 1) that holds
one line, bytes 0 to 5 of the source. -/
def titleTree : ast.Tree :=
  { node := fun v =>
      if v = 0 then { ast.newBlock .Document with children := [1] }
      else if v = 1 then
        { ast.newBlock .Paragraph with parent := some 0, lines := [{ Start := 0, Stop := 5 }] }
      else ast.newBlock (.Other 0)
    fresh := 2 }

/-- A parse context with an empty store whose last opened block is node 1. -/
def titleContext : parser.Context :=
  { store := fun _ => .nil, LastOpenedBlock := some 1 }

/-- A reader over the title source, positioned at the bar line `===`. -/
def titleReader : text.Reader :=
  { Source := titleSource, PeekLine := ([61, 61, 61, 10], { Start := 6, Stop := 10 }) }

/-- A reader positioned at the bar line `---`, two spaces, line feed, of the
source `Sub`, line feed, `---`, two spaces, line feed. -/
def subReader : text.Reader :=
  { Source := [83, 117, 98, 10, 45, 45, 45, 32, 32, 10],
    PeekLine := ([45, 45, 45, 32, 32, 10], { Start := 4, Stop := 10 }) }

/-- The parser with attribute parsing and auto-ID disabled. -/
def plainParser : parser.setextHeadingParser :=
  { AutoHeadingID := false, Attribute := false }

/-- Collaborators that find no attributes and generate no ID. -/
def idleCollaborators : parser.Collaborators :=
  { FindAttributeIndiciesReverse := fun _ _ => none
    generateAutoHeadingID := fun _ _ s => s }

/-- The tree after Open on the title input: the new heading is node 2. -/
def titleOpenedTree : ast.Tree :=
  (titleTree.NewHeading 1).1.AppendLine 2 { Start := 6, Stop := 10 }

/-- The context after Open on the title input: the paragraph is stashed. -/
def titleOpenedContext : parser.Context :=
  titleContext.Set parser.temporaryParagraphKey (.node 1)

/-- The tree the driver hands to Close: the heading attached to the document,
behind the paragraph. -/
def titleAttachedTree : ast.Tree :=
  titleOpenedTree.InsertAfter 0 1 2


/-! ## Vocabulary of the statements about the configuration -/

/-- The value that the last `WithOption` for `name` in the list sets, if the
list has one. -/
def lastWithOption {σ V : Type} (name : OptionName) : List (RendererOption σ V) → Option V
  | [] => none
  | o :: os =>
    match lastWithOption name os with
    | some v => some v
    | none =>
      match o with
      | .withOption n v => if n = name then some v else none
      | .withNodeRenderers _ => none

/-- Whether the option is a `WithOption`. -/
def RendererOption.isWithOption {σ V : Type} : RendererOption σ V → Bool
  | .withOption _ _ => true
  | .withNodeRenderers _ => false

/-- The registrations of all `WithNodeRenderers` options of the list,
accumulated in the order of the list. -/
def registrations {σ V : Type} :
    List (RendererOption σ V) → List (util.PrioritizedValue (Registered σ V))
  | [] => []
  | .withNodeRenderers value :: os => value ++ registrations os
  | .withOption _ _ :: os => registrations os

/-- A sequence of AddOption calls on one renderer: the renderer afterwards and
the faults of the calls that panicked. -/
def renderer.addOptions {σ V : Type} (r : renderer σ V) :
    List (RendererOption σ V) → renderer σ V × List Fault
  | [] => (r, [])
  | o :: os =>
    match r.AddOption o with
    | (r1, none) => renderer.addOptions r1 os
    | (r1, some f) => ((renderer.addOptions r1 os).1, f :: (renderer.addOptions r1 os).2)

/-- The SetOption calls due to the registration at position `i` of the sorted
registrations: one per entry of the options map when the value is a
SetOptioner, none otherwise (and none when there is no such position). -/
def callsOn {σ V : Type} (options : OptionMap V) (i : Nat) :
    Option (util.PrioritizedValue (Registered σ V)) → List (Event V)
  | none => []
  | some v =>
    match v.Value.asSetOptioner with
    | some _ => options.map fun e => Event.setOption i e.1 e.2
    | none => []

/-- The SetOption calls due to a list of registrations that starts at position
`i`, registration by registration. -/
def expectedSetOptions {σ V : Type} (options : OptionMap V) :
    List (util.PrioritizedValue (Registered σ V)) → Nat → List (Event V)
  | [], _ => []
  | v :: vs, i => callsOn options i (some v) ++ expectedSetOptions options vs (i + 1)

/-- The position of the value on which a SetOption call is made. -/
def Event.setOptionIndex {V : Type} : Event V → Option Nat
  | .setOption i _ _ => some i
  | _ => none

/-! ## Vocabulary of the statements about Close -/

/-- Lines 77 to 112 of Close: the block step and the attribute step, before the
auto-ID step. -/
def parser.setextHeadingParser.closeBeforeAutoID (b : parser.setextHeadingParser)
    (ext : parser.Collaborators) (t : ast.Tree) (node : ast.NodeRef) (reader : text.Reader)
    (pc : parser.Context) : Outcome (ast.Tree × parser.Context) :=
  (parser.setextHeadingParser.closeBlock t node reader pc).bind fun tp =>
  (if b.Attribute then parser.setextHeadingParser.closeAttribute ext tp.1 node reader
    else .returned tp.1).bind fun t1 =>
  .returned (t1, tp.2)

/-- The bytes `line[lo:hi]` of a range that lies within the line. -/
def bytesOf (line : List Byte) (lo hi : Int) : List Byte :=
  (line.take hi.toNat).drop lo.toNat

/-- Whether the index quadruple lies within the line. -/
def quadInRange (line : List Byte) (q : Int × Int × Int × Int) : Prop :=
  (0 ≤ q.1 ∧ q.1 ≤ q.2.1 ∧ q.2.1 ≤ (line.length : Int)) ∧
    (0 ≤ q.2.2.1 ∧ q.2.2.1 ≤ q.2.2.2 ∧ q.2.2.2 ≤ (line.length : Int))

/-- The attribute mapping after every quadruple of the list, in list order, set
the attribute named `line[k0:k1]` to the value `line[v0:v1]`. -/
def attributesAfter (line : List Byte) :
    List (List Byte × List Byte) → List (Int × Int × Int × Int) → List (List Byte × List Byte)
  | attrs, [] => attrs
  | attrs, (k0, k1, v0, v1) :: rest =>
    attributesAfter line (ast.setAttr attrs (bytesOf line k0 k1) (bytesOf line v0 v1)) rest

/-- The value of the last quadruple of the list whose name is `name`, if the
list has one. -/
def lastNamed (line : List Byte) (name : List Byte) :
    List (Int × Int × Int × Int) → Option (List Byte)
  | [] => none
  | (k0, k1, v0, v1) :: rest =>
    match lastNamed line name rest with
    | some v => some v
    | none => if bytesOf line k0 k1 = name then some (bytesOf line v0 v1) else none

/-! ## Concrete inputs for Close -/

/-- The source: line feed, `---`, line feed. -/
def ruleSource : List Byte :=
  [10, 45, 45, 45, 10]

/-- A document (node 0) whose only child is a paragraph (node 1) without
lines. -/
def emptyParagraphTree : ast.Tree :=
  { node := fun v =>
      if v = 0 then { ast.newBlock .Document with children := [1] }
      else if v = 1 then { ast.newBlock .Paragraph with parent := some 0 }
      else ast.newBlock (.Other 0)
    fresh := 2 }

/-- A reader over the rule source, positioned at the bar line `---`. -/
def ruleReader : text.Reader :=
  { Source := ruleSource, PeekLine := ([45, 45, 45, 10], { Start := 1, Stop := 5 }) }

/-- The tree the driver hands to Close on the rule input: the heading that Open
made (node 2) attached to the document, behind the paragraph. -/
def ruleAttachedTree : ast.Tree :=
  ((emptyParagraphTree.NewHeading 2).1.AppendLine 2 { Start := 1, Stop := 5 }).InsertAfter 0 1 2

/-- The parser with attribute parsing enabled and auto-ID disabled. -/
def attributeParser : parser.setextHeadingParser :=
  { AutoHeadingID := false, Attribute := true }

/-- The parser with attribute parsing and auto-ID enabled. -/
def fullParser : parser.setextHeadingParser :=
  { AutoHeadingID := true, Attribute := true }

/-- The parser with auto-ID enabled and attribute parsing disabled. -/
def autoIDParser : parser.setextHeadingParser :=
  { AutoHeadingID := true, Attribute := false }

/-- The source `Title {#custom-id}`, line feed, `===`, line feed. -/
def customSource : List Byte :=
  [84, 105, 116, 108, 101, 32, 123, 35, 99, 117, 115, 116, 111, 109, 45, 105, 100, 125, 10,
    61, 61, 61, 10]

/-- A reader over the custom source, positioned at the bar line `===`. -/
def customReader : text.Reader :=
  { Source := customSource, PeekLine := ([61, 61, 61, 10], { Start := 19, Stop := 23 }) }

/-- A document (node 0) whose only child is a paragraph (node 1) that holds
the line `Title {#custom-id}`, bytes 0 to 18 of the custom source. -/
def customTree : ast.Tree :=
  { node := fun v =>
      if v = 0 then { ast.newBlock .Document with children := [1] }
      else if v = 1 then
        { ast.newBlock .Paragraph with parent := some 0, lines := [{ Start := 0, Stop := 18 }] }
      else ast.newBlock (.Other 0)
    fresh := 2 }

/-- The tree the driver hands to Close on the custom input: the heading that
Open made (node 2) attached to the document, behind the paragraph. -/
def customAttachedTree : ast.Tree :=
  ((customTree.NewHeading 1).1.AppendLine 2 { Start := 19, Stop := 23 }).InsertAfter 0 1 2

/-- A generator that sets the attribute `id` of the heading to `a`. -/
def markingGenerator (node : ast.NodeRef) (_reader : text.Reader)
    (s : ast.Tree × parser.Context) : ast.Tree × parser.Context :=
  (s.1.SetAttribute node parser.idName [97], s.2)

/-- Collaborators whose tokenizer reports one attribute whose tokens start at
offset 7, behind the opening brace at offset 6: the name range 7 to 8 and the
value range 8 to 17. -/
def offsetSevenCollaborators : parser.Collaborators :=
  { FindAttributeIndiciesReverse := fun _ _ => some [(7, 8, 8, 17)]
    generateAutoHeadingID := markingGenerator }

/-- Collaborators whose tokenizer reports, for the line `Title {#custom-id}`,
the name range 15 to 17, where the line reads `id`, and the value range 8 to
17, where it reads `custom-id`. -/
def idCollaborators : parser.Collaborators :=
  { FindAttributeIndiciesReverse := fun _ _ => some [(15, 17, 8, 17)]
    generateAutoHeadingID := markingGenerator }

/-- Collaborators whose tokenizer finds no attribute block. -/
def markingCollaborators : parser.Collaborators :=
  { FindAttributeIndiciesReverse := fun _ _ => none
    generateAutoHeadingID := markingGenerator }
/-! ## Theorems: the renderer -/

@[simp] theorem Outcome.bind_returned {α β : Type} (a : α) (k : α → Outcome β) :
    (Outcome.returned a).bind k = k a := rfl

@[simp] theorem Outcome.bind_panicked {α β : Type} (f : Fault) (k : α → Outcome β) :
    (Outcome.panicked f : Outcome α).bind k = .panicked f := rfl

/-- A run of sentinel answers is skipped: the loop goes on behind it, having
called exactly the members of the run, in order. -/
theorem dispatch_skip {σ V : Type} (source : List Byte) (n : ast.Node) (entering : Bool)
    (pre : List (NodeRenderer σ)) :
    ∀ (rest : List (Option (NodeRenderer σ))) (i : Nat) (s : ast.WalkStatus)
      (err : Option GoError) (st : σ) (tr : List (Event V)),
      allNotSupported source n entering pre st →
      ∃ s1 err1,
        renderer.dispatch source n entering (pre.map some ++ rest) i s err (st, tr) =
          renderer.dispatch source n entering rest (i + pre.length) s1 err1
            (worldAfter source n entering pre st, tr ++ renderCalls n entering i pre.length) ∧
        (pre = [] → s1 = s ∧ err1 = err) ∧
        (pre ≠ [] → err1 = some GoError.NotSupported) := by
  induction pre with
  | nil =>
    intro rest i s err st tr _
    exact ⟨s, err, by simp [worldAfter, renderCalls], fun _ => ⟨rfl, rfl⟩, fun h => absurd rfl h⟩
  | cons nr pre ih =>
    intro rest i s err st tr h
    obtain ⟨h1, h2⟩ := h
    obtain ⟨s1, err1, e1, e2, e3⟩ :=
      ih rest (i + 1) (nr st source n entering).1.1 (nr st source n entering).1.2
        (nr st source n entering).2 (tr ++ [Event.render i n entering]) h2
    refine ⟨s1, err1, ?_, fun h => absurd h (List.cons_ne_nil _ _), fun _ => ?_⟩
    · rw [h1] at e1
      simp only [List.map_cons, List.cons_append, renderer.dispatch, h1, if_true, List.append_eq]
      rw [e1]
      simp [worldAfter, renderCalls, Nat.add_assoc, Nat.add_comm 1]
    · by_cases hp : pre = []
      · rw [(e2 hp).2]; exact h1
      · exact e3 hp

/-- When every node renderer of a chain answers the sentinel, the visitor
answers what the last one answered: its status, and the sentinel as error. -/
theorem visitor_all_notSupported {σ V : Type} (r : renderer σ V) (source : List Byte)
    (n : ast.Node) (entering : Bool) (chain : List (NodeRenderer σ)) (st : σ)
    (tr : List (Event V)) (hr : r.nodeRenderers = chain.map some) (hne : chain ≠ [])
    (h : allNotSupported source n entering chain st) :
    ∃ s, r.visitor source n entering (st, tr) =
      (.returned (s, some GoError.NotSupported),
        (worldAfter source n entering chain st, tr ++ renderCalls n entering 0 chain.length)) := by
  obtain ⟨s1, err1, e1, _, e3⟩ :=
    dispatch_skip (V := V) source n entering chain [] 0 .WalkUnset none st tr h
  refine ⟨s1, ?_⟩
  unfold renderer.visitor
  rw [hr]
  rw [List.append_nil] at e1
  rw [e1, e3 hne]
  simp [renderer.dispatch]

/-- Claim C1, at a failing input. A renderer whose only node renderer answers
NotSupported, on a document with one child: the visitor hands the sentinel to
the walk as an error, the walk aborts at the first node (the child is never
offered), Render returns NotSupported to its caller and does not flush. -/
theorem C1_render_returns_NotSupported :
    (rejectingOnly.Render quietWriter [] smallDocument ()).outcome =
        .returned (some GoError.NotSupported) ∧
      (rejectingOnly.Render quietWriter [] smallDocument ()).trace =
        [Event.render 0 smallDocument true] := by
  constructor <;> rfl

/-- Claim C2. The node renderers ahead of the first one that answers something
else than the sentinel are called in chain order, that one is called last, none
behind it is called, and the visitor answers exactly what that one answered
(walk status and error), in the world it left. -/
theorem C2_dispatch_first_claiming {σ V : Type} (r : renderer σ V) (source : List Byte)
    (n : ast.Node) (entering : Bool) (pre : List (NodeRenderer σ)) (nr : NodeRenderer σ)
    (post : List (Option (NodeRenderer σ))) (st : σ) (tr : List (Event V))
    (hr : r.nodeRenderers = pre.map some ++ some nr :: post)
    (hpre : allNotSupported source n entering pre st)
    (hnr : (nr (worldAfter source n entering pre st) source n entering).1.2 ≠
      some GoError.NotSupported) :
    r.visitor source n entering (st, tr) =
      (.returned (nr (worldAfter source n entering pre st) source n entering).1,
        ((nr (worldAfter source n entering pre st) source n entering).2,
          tr ++ renderCalls n entering 0 (pre.length + 1))) := by
  obtain ⟨s1, err1, e1, _, _⟩ :=
    dispatch_skip (V := V) source n entering pre (some nr :: post) 0 .WalkUnset none st tr hpre
  unfold renderer.visitor
  rw [hr, e1]
  have key : ∀ (k : Nat) (i : Nat) (t : List (Event V)),
      t ++ renderCalls n entering i k ++ [Event.render (i + k) n entering] =
        t ++ renderCalls n entering i (k + 1) := by
    intro k
    induction k with
    | zero => intro i t; simp [renderCalls]
    | succ k ih =>
      intro i t
      have := ih (i + 1) (t ++ [Event.render i n entering])
      simp only [renderCalls, List.append_assoc, List.singleton_append, List.cons_append] at this ⊢
      rw [show i + (k + 1) = i + 1 + k by omega]
      exact this
  simp only [renderer.dispatch, if_neg hnr, Nat.zero_add]
  rw [← key pre.length 0 tr, Nat.zero_add]

/-- The witness of claim C2: a rejecting node renderer ahead of an accepting
one; both are called, in this order, and the visitor answers (WalkContinue,
nil), the answer of the accepting one. -/
theorem C2_dispatch_first_claiming_witness :
    rejectThenAcceptReady.visitor [] smallDocument true ((), ([] : List (Event Nat))) =
      (.returned (ast.WalkStatus.WalkContinue, none),
        ((), [Event.render 0 smallDocument true, Event.render 1 smallDocument true])) :=
  C2_dispatch_first_claiming rejectThenAcceptReady [] smallDocument true [rejectingRenderer]
    acceptingRenderer [] () [] rfl ⟨rfl, trivial⟩ (by decide)

mutual
/-- What the visitor preserves holds after the walk of a subtree. -/
theorem walkNode_preserves {ω : Type} (walker : ast.Walker ω) (P : ω → Prop)
    (hw : ∀ n e s, P s → P (walker n e s).2) :
    ∀ (n : ast.Node) (s : ω), P s → P (ast.walkNode walker n s).2
  | .mk tag cs, s, hs => by
    have h1 := hw (.mk tag cs) true s hs
    rw [ast.walkNode]
    split
    · rename_i heq; rw [heq] at h1; exact h1
    · rename_i heq; rw [heq] at h1; exact h1
    · rename_i heq; rw [heq] at h1; exact h1
    · rename_i status st1 _ heq
      rw [heq] at h1
      have h2 : P (if status = ast.WalkStatus.WalkSkipChildren then (ast.WalkEnd.done, st1)
          else ast.walkChildren walker cs st1).2 := by
        split
        · exact h1
        · exact walkChildren_preserves walker P hw cs st1 h1
      split
      · rename_i st2 heq2
        rw [heq2] at h2
        have h3 := hw (.mk tag cs) false st2 h2
        split
        · rename_i heq3; rw [heq3] at h3; exact h3
        · rename_i heq3; rw [heq3] at h3; exact h3
        · rename_i heq3; rw [heq3] at h3; exact h3
        · rename_i heq3; rw [heq3] at h3; exact h3
      · exact h2
/-- What the visitor preserves holds after the walk of a list of siblings. -/
theorem walkChildren_preserves {ω : Type} (walker : ast.Walker ω) (P : ω → Prop)
    (hw : ∀ n e s, P s → P (walker n e s).2) :
    ∀ (cs : List ast.Node) (s : ω), P s → P (ast.walkChildren walker cs s).2
  | [], s, hs => by rw [ast.walkChildren]; exact hs
  | c :: cs, s, hs => by
    have h1 := walkNode_preserves walker P hw c s hs
    rw [ast.walkChildren]
    split
    · rename_i st1 heq
      rw [heq] at h1
      exact walkChildren_preserves walker P hw cs st1 h1
    · exact h1
end

/-- What the visitor preserves holds after `ast.Walk`. -/
theorem Walk_preserves {ω : Type} (walker : ast.Walker ω) (P : ω → Prop)
    (hw : ∀ n e s, P s → P (walker n e s).2) (n : ast.Node) (s : ω) (hs : P s) :
    P (ast.Walk n walker s).2 := by
  have h := walkNode_preserves walker P hw n s hs
  unfold ast.Walk
  split <;> (rename_i heq; rw [heq] at h; exact h)

/-- The loop over the chain adds only Render calls to the trace. -/
theorem dispatch_trace {σ V : Type} (Q : Event V → Prop) (hQ : ∀ i n e, Q (Event.render i n e))
    (source : List Byte) (n : ast.Node) (entering : Bool) :
    ∀ (chain : List (Option (NodeRenderer σ))) (i : Nat) (s : ast.WalkStatus)
      (err : Option GoError) (st : σ) (tr : List (Event V)),
      (∀ e ∈ tr, Q e) →
      ∀ e ∈ (renderer.dispatch source n entering chain i s err (st, tr)).2.2, Q e
  | [], _, _, _, _, _, h => by simpa [renderer.dispatch] using h
  | none :: _, _, _, _, _, _, h => by simpa [renderer.dispatch] using h
  | some nr :: rest, i, _, _, st, tr, h => by
    have h1 : ∀ e ∈ tr ++ [Event.render i n entering], Q e := by
      intro e he
      rcases List.mem_append.1 he with he | he
      · exact h e he
      · rw [List.mem_singleton.1 he]; exact hQ _ _ _
    rw [renderer.dispatch]
    split
    split
    · exact dispatch_trace Q hQ source n entering rest (i + 1) _ _ _ _ h1
    · exact h1

/-- The visitor adds only Render calls to the trace. -/
theorem visitor_trace {σ V : Type} (Q : Event V → Prop) (hQ : ∀ i n e, Q (Event.render i n e))
    (r : renderer σ V) (source : List Byte) (n : ast.Node) (entering : Bool)
    (s : σ × List (Event V)) (h : ∀ e ∈ s.2, Q e) :
    ∀ e ∈ (r.visitor source n entering s).2.2, Q e :=
  dispatch_trace Q hQ source n entering r.nodeRenderers 0 _ _ s.1 s.2 h

/-- The walk Render starts adds only Render calls to the trace. -/
theorem walk_trace {σ V : Type} (Q : Event V → Prop) (hQ : ∀ i n e, Q (Event.render i n e))
    (r : renderer σ V) (source : List Byte) (n : ast.Node)
    (s : σ × List (Event V)) (h : ∀ e ∈ s.2, Q e) :
    ∀ e ∈ (ast.Walk n (r.visitor source) s).2.2, Q e :=
  Walk_preserves (r.visitor source) (fun s => ∀ e ∈ s.2, Q e)
    (fun n e s hs => visitor_trace Q hQ r source n e s hs) n s h

/-- The option propagation to one SetOptioner adds only SetOption calls. -/
theorem propagateOptions_trace {σ V : Type} (Q : Event V → Prop)
    (hQ : ∀ i name v, Q (Event.setOption i name v)) (se : SetOptioner σ V) (i : Nat) :
    ∀ (m : OptionMap V) (w : σ × List (Event V)), (∀ e ∈ w.2, Q e) →
      ∀ e ∈ (propagateOptions se i m w).2, Q e
  | [], w, h => by simpa [propagateOptions] using h
  | (oname, ovalue) :: rest, (st, tr), h => by
    rw [propagateOptions]
    apply propagateOptions_trace Q hQ se i rest
    intro e he
    rcases List.mem_append.1 he with he | he
    · exact h e he
    · rw [List.mem_singleton.1 he]; exact hQ _ _ _

/-- The setup loop adds only SetOption calls. -/
theorem collectNodeRenderers_trace {σ V : Type} (Q : Event V → Prop)
    (hQ : ∀ i name v, Q (Event.setOption i name v)) (options : OptionMap V) :
    ∀ (vs : List (util.PrioritizedValue (Registered σ V))) (i : Nat)
      (chain : List (Option (NodeRenderer σ))) (w : σ × List (Event V)), (∀ e ∈ w.2, Q e) →
      ∀ e ∈ (collectNodeRenderers options vs i chain w).2.2, Q e
  | [], _, _, _, h => by simpa [collectNodeRenderers] using h
  | v :: vs, i, chain, w, h => by
    rw [collectNodeRenderers]
    apply collectNodeRenderers_trace Q hQ options vs
    split
    · exact propagateOptions_trace Q hQ _ i options w h
    · exact h

/-- The one-time setup adds only SetOption calls. -/
theorem initOnce_trace {σ V : Type} (Q : Event V → Prop)
    (hQ : ∀ i name v, Q (Event.setOption i name v)) (r : renderer σ V)
    (w : σ × List (Event V)) (h : ∀ e ∈ w.2, Q e) :
    ∀ e ∈ (r.initOnce w).2.2.2, Q e := by
  unfold renderer.initOnce renderer.setup
  split
  · exact h
  · split
    rename_i heq
    split at heq
    · cases heq; exact h
    · cases heq
      exact collectNodeRenderers_trace Q hQ _ _ 0 [] w h

/-- Once the Once has fired, `initOnce` does nothing. -/
theorem initOnce_done {σ V : Type} (r : renderer σ V) (w : σ × List (Event V))
    (h : r.initDone = true) : r.initOnce w = (.returned (), r, w) := by
  simp [renderer.initOnce, h]

/-- The Once has fired after `initOnce`. -/
theorem initOnce_initDone {σ V : Type} (r : renderer σ V) (w : σ × List (Event V)) :
    (r.initOnce w).2.1.initDone = true := by
  unfold renderer.initOnce
  split
  · assumption
  · rfl

/-- The renderer Render leaves behind is the one its `initOnce` step made. -/
theorem Render_r {σ V : Type} (r : renderer σ V) (w : IOWriter σ) (source : List Byte)
    (n : ast.Node) (st : σ) : (r.Render w source n st).r = (r.initOnce (st, [])).2.1 := by
  unfold renderer.Render
  split
  · rename_i heq; rw [heq]
  · rename_i heq; rw [heq]
    split
    · rfl
    · rfl
    · rfl

/-- Claim C3. After the one-time setup step, if the walk ends with an error
`e` (any error of a node renderer), Render returns exactly `e` and its trace
holds no Flush; if the walk ends without error, Render calls Flush once, as its
last call after the walk, and returns the result of Flush. -/
theorem C3_flush_iff_walk_succeeds {σ V : Type} (r : renderer σ V) (w : IOWriter σ)
    (source : List Byte) (n : ast.Node) (st : σ) (r1 : renderer σ V) (w1 : σ × List (Event V))
    (hinit : r.initOnce (st, []) = (.returned (), r1, w1)) :
    (∀ e st2 tr2, ast.Walk n (r1.visitor source) w1 = (.returned (some e), (st2, tr2)) →
      (r.Render w source n st).outcome = .returned (some e) ∧
      (r.Render w source n st).world = st2 ∧
      (r.Render w source n st).trace = tr2 ∧
      ∀ ev ∈ (r.Render w source n st).trace, ev.isFlush = false) ∧
    (∀ st2 tr2, ast.Walk n (r1.visitor source) w1 = (.returned none, (st2, tr2)) →
      (r.Render w source n st).outcome = .returned (w.Flush st2).1 ∧
      (r.Render w source n st).world = (w.Flush st2).2 ∧
      (r.Render w source n st).trace = tr2 ++ [Event.flush] ∧
      ∀ ev ∈ tr2, ev.isFlush = false) := by
  have hw1 : ∀ ev ∈ w1.2, ev.isFlush = false := by
    have h := initOnce_trace (fun ev => ev.isFlush = false) (fun _ _ _ => rfl) r (st, [])
      (by simp)
    rw [hinit] at h
    exact h
  have hwalk : ∀ ev ∈ (ast.Walk n (r1.visitor source) w1).2.2, ev.isFlush = false :=
    walk_trace (fun ev => ev.isFlush = false) (fun _ _ _ => rfl) r1 source n w1 hw1
  constructor
  · intro e st2 tr2 h
    rw [h] at hwalk
    have hres : r.Render w source n st =
        { r := r1, world := st2, trace := tr2, outcome := .returned (some e) } := by
      unfold renderer.Render
      rw [hinit]
      simp only [h]
    rw [hres]
    exact ⟨rfl, rfl, rfl, hwalk⟩
  · intro st2 tr2 h
    rw [h] at hwalk
    have hres : r.Render w source n st =
        { r := r1, world := (w.Flush st2).2, trace := tr2 ++ [Event.flush],
          outcome := .returned (w.Flush st2).1 } := by
      unfold renderer.Render
      rw [hinit]
      simp only [h]
    rw [hres]
    exact ⟨rfl, rfl, rfl, hwalk⟩

/-- The witness of claim C3: a renderer whose node renderer fails returns that
error and never flushes; a renderer without node renderers walks the whole
document, flushes once at the end and returns the nil error of Flush. -/
theorem C3_flush_iff_walk_succeeds_witness :
    ((failingOnly.Render quietWriter [] smallDocument ()).outcome =
        .returned (some (GoError.failure "boom")) ∧
      (failingOnly.Render quietWriter [] smallDocument ()).trace =
        [Event.render 0 smallDocument true]) ∧
    ((bareRenderer.Render quietWriter [] smallDocument ()).outcome = .returned none ∧
      (bareRenderer.Render quietWriter [] smallDocument ()).trace = [Event.flush]) :=
  ⟨⟨((C3_flush_iff_walk_succeeds failingOnly quietWriter [] smallDocument ()
        (failingOnly.initOnce ((), [])).2.1 (failingOnly.initOnce ((), [])).2.2 rfl).1
        (GoError.failure "boom") () [Event.render 0 smallDocument true] rfl).1,
      ((C3_flush_iff_walk_succeeds failingOnly quietWriter [] smallDocument ()
        (failingOnly.initOnce ((), [])).2.1 (failingOnly.initOnce ((), [])).2.2 rfl).1
        (GoError.failure "boom") () [Event.render 0 smallDocument true] rfl).2.2.1⟩,
    ⟨((C3_flush_iff_walk_succeeds bareRenderer quietWriter [] smallDocument ()
        (bareRenderer.initOnce ((), [])).2.1 (bareRenderer.initOnce ((), [])).2.2 rfl).2
        () [] rfl).1,
      ((C3_flush_iff_walk_succeeds bareRenderer quietWriter [] smallDocument ()
        (bareRenderer.initOnce ((), [])).2.1 (bareRenderer.initOnce ((), [])).2.2 rfl).2
        () [] rfl).2.2.1⟩⟩

/-- On a renderer a program can hold, the Once has fired exactly when the
config has been dropped. -/
theorem Reachable_config {σ V : Type} (r : renderer σ V) (h : renderer.Reachable r) :
    r.initDone = true ↔ r.config = none := by
  induction h with
  | new options => simp [NewRenderer]
  | addOption r o _ ih =>
    unfold renderer.AddOption
    cases hc : r.config with
    | none => simpa [RendererOption.SetConfig, hc] using ih
    | some c =>
      have : ¬ r.initDone = true := fun h => by simp [ih.1 h] at hc
      simpa [RendererOption.SetConfig, hc] using this
  | render r w source n st _ ih =>
    rw [Render_r]
    unfold renderer.initOnce renderer.setup
    by_cases hd : r.initDone = true
    · simpa [hd] using ih.1 hd
    · cases hc : r.config with
      | none => simp [hd, hc]
      | some c => simp [hd]

/-- After a call of Render on a renderer a program can hold, the config is nil. -/
theorem Render_config {σ V : Type} (r : renderer σ V) (h : renderer.Reachable r)
    (w : IOWriter σ) (source : List Byte) (n : ast.Node) (st : σ) :
    (r.Render w source n st).r.config = none := by
  apply (Reachable_config _ (renderer.Reachable.render r w source n st h)).1
  rw [Render_r]
  exact initOnce_initDone r (st, [])

/-- Once the Once has fired, Render leaves the renderer as it is and calls no
SetOption. -/
theorem Render_done {σ V : Type} (r : renderer σ V) (hd : r.initDone = true)
    (w : IOWriter σ) (source : List Byte) (n : ast.Node) (st : σ) :
    (r.Render w source n st).r = r ∧
      ∀ e ∈ (r.Render w source n st).trace, e.isSetOption = false := by
  constructor
  · rw [Render_r, initOnce_done r _ hd]
  · have hwalk := walk_trace (fun ev => ev.isSetOption = false) (fun _ _ _ => rfl) r source n
      (st, ([] : List (Event V))) (by simp)
    unfold renderer.Render
    rw [initOnce_done r _ hd]
    simp only
    split
    · rename_i heq; rw [heq] at hwalk; exact hwalk
    · rename_i heq; rw [heq] at hwalk; exact hwalk
    · rename_i heq; rw [heq] at hwalk
      intro e he
      rcases List.mem_append.1 he with he | he
      · exact hwalk e he
      · rw [List.mem_singleton.1 he]; rfl

/-- The failing input of claim C4: on a renderer that has rendered once,
AddOption with the option that sets `x` does not complete; it panics with a
nil dereference. -/
theorem C4_AddOption_after_Render_panics :
    ¬ (bareReady.AddOption (RendererOption.withOption "x" 1)).2 = none := by
  decide

/-- Claim C4. The code does not complete the call the claim and the comment
on AddOption describe: on every renderer on which Render has been called,
AddOption with any option panics, because the setup set the config to nil and
SetConfig dereferences it unguarded. The frame part of the claim holds: the
renderer is left as it was (options map and chain included), so every later
Render call behaves as without the AddOption call. -/
theorem C4_AddOption_after_Render_no_effect {σ V : Type} (r : renderer σ V)
    (h : renderer.Reachable r) (w : IOWriter σ) (source : List Byte) (n : ast.Node) (st : σ)
    (o : RendererOption σ V) :
    (r.Render w source n st).r.AddOption o =
        ((r.Render w source n st).r, some Fault.nilDereference) ∧
      ∀ (w1 : IOWriter σ) (source1 : List Byte) (n1 : ast.Node) (st1 : σ),
        ((r.Render w source n st).r.AddOption o).1.Render w1 source1 n1 st1 =
          (r.Render w source n st).r.Render w1 source1 n1 st1 := by
  have hc := Render_config r h w source n st
  have key : (r.Render w source n st).r.AddOption o =
      ((r.Render w source n st).r, some Fault.nilDereference) := by
    simp [renderer.AddOption, RendererOption.SetConfig, hc]
  refine ⟨key, fun w1 source1 n1 st1 => ?_⟩
  rw [key]

/-- The witness of claim C4: the renderer with one option and one registration,
after one call of Render, and the option that sets `x`. -/
theorem C4_AddOption_after_Render_no_effect_witness :
    (optionedRenderer.Render quietWriter [] smallDocument ()).r.AddOption
        (RendererOption.withOption "x" 1) =
      ((optionedRenderer.Render quietWriter [] smallDocument ()).r, some Fault.nilDereference) :=
  (C4_AddOption_after_Render_no_effect optionedRenderer (renderer.Reachable.new _) quietWriter []
    smallDocument () (RendererOption.withOption "x" 1)).1

/-- After the first call, a sequence of calls leaves the renderer as it is and
calls no SetOption. -/
theorem renderAll_done {σ V : Type} (later : List (RenderCall σ)) :
    ∀ (r : renderer σ V), r.initDone = true →
      ∀ res ∈ renderAll r later, res.r = r ∧ ∀ e ∈ res.trace, e.isSetOption = false := by
  induction later with
  | nil => intro r _ res hres; simp [renderAll] at hres
  | cons c cs ih =>
    intro r hd res hres
    have h1 := Render_done r hd c.w c.source c.n c.st
    rw [renderAll] at hres
    rcases List.mem_cons.1 hres with hres | hres
    · rw [hres]; exact h1
    · rw [h1.1] at hres
      exact ih r hd res hres

/-- Claim C5. In a sequence of Render calls on one renderer, every call after
the first leaves the renderer as the first call left it, in particular the
chain of node renderers (contents and order) and the options map, and calls
SetOption on nothing: the setup runs in the first call only. -/
theorem C5_setup_runs_once {σ V : Type} (r : renderer σ V) (first : RenderCall σ)
    (later : List (RenderCall σ)) (res : RenderResult σ V)
    (hres : res ∈ renderAll (r.Render first.w first.source first.n first.st).r later) :
    res.r.nodeRenderers = (r.Render first.w first.source first.n first.st).r.nodeRenderers ∧
      res.r.options = (r.Render first.w first.source first.n first.st).r.options ∧
      res.r = (r.Render first.w first.source first.n first.st).r ∧
      ∀ e ∈ res.trace, e.isSetOption = false := by
  have hd : (r.Render first.w first.source first.n first.st).r.initDone = true := by
    rw [Render_r]; exact initOnce_initDone r _
  have h := renderAll_done later _ hd res hres
  exact ⟨by rw [h.1], by rw [h.1], h.1, h.2⟩

/-- The witness of claim C5: the first call on the renderer with one option and
one SetOptioner calls SetOption; the third call leaves the options map as the
first call left it and calls no SetOption. -/
theorem C5_setup_runs_once_witness :
    (optionedRenderer.Render quietWriter [] smallDocument ()).trace =
        [Event.setOption 0 "k" 1, Event.render 0 smallDocument true,
          Event.render 0 (ast.Node.mk 1 []) true, Event.render 0 (ast.Node.mk 1 []) false,
          Event.render 0 smallDocument false, Event.flush] ∧
      (((optionedRenderer.Render quietWriter [] smallDocument ()).r.Render quietWriter []
          smallDocument ()).r.Render quietWriter [] smallDocument ()).r.options =
        (optionedRenderer.Render quietWriter [] smallDocument ()).r.options ∧
      ∀ e ∈ (((optionedRenderer.Render quietWriter [] smallDocument ()).r.Render quietWriter []
          smallDocument ()).r.Render quietWriter [] smallDocument ()).trace,
        e.isSetOption = false :=
  ⟨rfl,
    (C5_setup_runs_once optionedRenderer smallCall [smallCall, smallCall] _
      (List.mem_cons_of_mem _ (List.mem_cons_self _ _))).2.1,
    (C5_setup_runs_once optionedRenderer smallCall [smallCall, smallCall] _
      (List.mem_cons_of_mem _ (List.mem_cons_self _ _))).2.2.2⟩

/-! ## Theorems: the setext heading bar -/

/-- The slice from `k` to the end is the list without its first `k` bytes. -/
theorem goSlice_suffix (line : List Byte) (k : Nat) (hk : k ≤ line.length) :
    goSlice line (0 + (k : Int)) (line.length : Int) = .returned (line.drop k) := by
  unfold goSlice
  have h : 0 ≤ (0 : Int) + (k : Int) ∧ (0 : Int) + (k : Int) ≤ (line.length : Int) ∧
      (line.length : Int) ≤ (line.length : Int) := by omega
  rw [if_pos h]
  simp

/-- The read of the last byte of a line that is not empty. -/
theorem goIndex_last (l : List Byte) (h : l ≠ []) :
    goIndex l ((l.length : Int) - 1) = .returned (l.getLast h) := by
  unfold goIndex
  have hpos : 0 < l.length := List.length_pos.2 h
  have h0 : (0 : Int) ≤ (l.length : Int) - 1 := by omega
  have h1 : ((l.length : Int) - 1).toNat = l.length - 1 := by omega
  rw [if_pos h0, h1]
  have h2 : l[l.length - 1]? = some (l.getLast h) := by
    rw [List.getLast_eq_getElem]
    exact List.getElem?_eq_getElem _
  rw [h2]

/-- The read at `len - 1` panics on the empty line. -/
theorem goIndex_empty : goIndex ([] : List Byte) (((([] : List Byte).length : Nat) : Int) - 1) =
    .panicked .indexOutOfRange := by
  decide

theorem TrimLeftLength_le (l s : List Byte) : util.TrimLeftLength l s ≤ l.length :=
  (List.takeWhile_sublist _).length_le

theorem TrimRightSpaceLength_le (l : List Byte) : util.TrimRightSpaceLength l ≤ l.length := by
  unfold util.TrimRightSpaceLength
  have h := (List.takeWhile_sublist util.IsSpace (l := l.reverse)).length_le
  simpa using h

/-- The leading run counted by `TrimLeftLength l [c]` consists of `c` only. -/
theorem TrimLeftLength_split (c : Byte) :
    ∀ l : List Byte, l = List.replicate (util.TrimLeftLength l [c]) c ++
      l.drop (util.TrimLeftLength l [c])
  | [] => by simp [util.TrimLeftLength]
  | a :: l => by
    by_cases h : a = c
    · subst h
      have ih := TrimLeftLength_split a l
      have e : util.TrimLeftLength (a :: l) [a] = util.TrimLeftLength l [a] + 1 := by
        simp [util.TrimLeftLength]
      rw [e]
      simp only [List.replicate_succ, List.drop_succ_cons, List.cons_append]
      rw [← ih]
    · have e : util.TrimLeftLength (a :: l) [c] = 0 := by
        simp [util.TrimLeftLength, h]
      rw [e]
      simp

/-- After the leading run counted by `TrimLeftLength l [c]` no `c` follows
immediately. -/
theorem TrimLeftLength_replicate_append (c : Byte) (k : Nat) (rest : List Byte)
    (h : ∀ a, rest.head? = some a → a ≠ c) :
    util.TrimLeftLength (List.replicate k c ++ rest) [c] = k := by
  unfold util.TrimLeftLength
  rw [List.takeWhile_append_of_pos (by intro a ha; simp [List.eq_of_mem_replicate ha])]
  cases rest with
  | nil => simp
  | cons a rest =>
    have : a ≠ c := h a rfl
    simp [this]

/-- The trailing run counted by `TrimRightSpaceLength` is whitespace. -/
theorem TrimRightSpaceLength_suffix (l : List Byte) :
    ∀ b ∈ l.drop (l.length - util.TrimRightSpaceLength l), util.IsSpace b = true := by
  intro b hb
  have hs : l.rtakeWhile util.IsSpace <:+ l := List.rtakeWhile_suffix _ _
  have hlen : (l.rtakeWhile util.IsSpace).length = util.TrimRightSpaceLength l := by
    simp [List.rtakeWhile, util.TrimRightSpaceLength]
  obtain ⟨t, ht⟩ := hs
  have hd : l.drop (l.length - util.TrimRightSpaceLength l) = l.rtakeWhile util.IsSpace := by
    have hl : l.length = t.length + util.TrimRightSpaceLength l := by
      rw [← hlen, ← List.length_append, ht]
    have : l.length - util.TrimRightSpaceLength l = t.length := by omega
    rw [this]
    conv_lhs => rw [← ht]
    simp
  rw [hd] at hb
  have hb2 : b ∈ l.reverse.takeWhile util.IsSpace := by
    simpa [List.rtakeWhile] using hb
  exact List.mem_takeWhile_imp hb2

/-- On a line that is not empty and has at most three leading spaces, the
function in terms of the lengths of the runs: no slice and no read is out of
range. -/
theorem matchesSetextHeadingBar_eq (line : List Byte) (hne : line ≠ [])
    (hs : util.TrimLeftLength line [32] ≤ 3) :
    parser.matchesSetextHeadingBar line =
      if (0 < util.TrimLeftLength (line.drop (util.TrimLeftLength line [32])) [61] ∧
            util.TrimLeftLength line [32] +
              util.TrimLeftLength (line.drop (util.TrimLeftLength line [32])) [61] +
              (if util.IsSpace (line.getLast hne) = true then
                util.TrimRightSpaceLength (line.drop (util.TrimLeftLength line [32])) else 0) =
              line.length) then .returned (61, true)
      else if (util.TrimLeftLength (line.drop (util.TrimLeftLength line [32])) [61] = 0 ∧
            0 < util.TrimLeftLength (line.drop (util.TrimLeftLength line [32])) [45] ∧
            util.TrimLeftLength line [32] +
              util.TrimLeftLength (line.drop (util.TrimLeftLength line [32])) [45] +
              (if util.IsSpace (line.getLast hne) = true then
                util.TrimRightSpaceLength (line.drop (util.TrimLeftLength line [32])) else 0) =
              line.length) then .returned (45, true)
      else .returned (0, false) := by
  have hle := TrimLeftLength_le line [32]
  have hsl := goSlice_suffix line (util.TrimLeftLength line [32]) hle
  have hlast := goIndex_last line hne
  have htr := TrimRightSpaceLength_le (line.drop (util.TrimLeftLength line [32]))
  have hl1 := TrimLeftLength_le (line.drop (util.TrimLeftLength line [32])) [61]
  have hl2 := TrimLeftLength_le (line.drop (util.TrimLeftLength line [32])) [45]
  rw [List.length_drop] at htr hl1 hl2
  generalize hsp : util.TrimLeftLength line [32] = space at *
  generalize hr : line.drop space = rest at *
  unfold parser.matchesSetextHeadingBar
  simp only [hsp]
  have hns : ¬ ((space : Int) > 3) := by omega
  rw [if_neg hns, hsl, hlast]
  simp only [Outcome.bind_returned]
  generalize util.TrimLeftLength rest [61] = l1 at *
  generalize util.TrimLeftLength rest [45] = l2 at *
  generalize util.TrimRightSpaceLength rest = tr at *
  generalize line.length = len at *
  by_cases hsp1 : util.IsSpace (line.getLast hne) = true
  · by_cases h1 : l1 = 0
    · subst h1
      simp only [hsp1, if_true, Nat.cast_zero, Outcome.bind_returned]
      split_ifs <;> first | rfl | (exfalso; omega) | (exfalso; simp only [true_and] at *; omega)
    · have h1i : ¬ ((l1 : Int) = 0) := by omega
      simp only [hsp1, if_true, if_neg h1i, Outcome.bind_returned]
      split_ifs <;> first | rfl | (exfalso; omega)
  · by_cases h1 : l1 = 0
    · subst h1
      simp only [hsp1, Bool.false_eq_true, if_false, if_true, Nat.cast_zero, Outcome.bind_returned]
      split_ifs <;> first | rfl | (exfalso; omega) | (exfalso; simp only [true_and] at *; omega)
    · have h1i : ¬ ((l1 : Int) = 0) := by omega
      simp only [hsp1, Bool.false_eq_true, if_false, if_true, if_neg h1i, Outcome.bind_returned]
      split_ifs <;> first | rfl | (exfalso; omega)

/-- The trailing run of a bar followed by whitespace is the whitespace. -/
theorem TrimRightSpaceLength_bar (c : Byte) (hc : util.IsSpace c = false) (n : Nat)
    (ws : List Byte) (hws : ∀ x ∈ ws, util.IsSpace x = true) :
    util.TrimRightSpaceLength (List.replicate (n + 1) c ++ ws) = ws.length := by
  unfold util.TrimRightSpaceLength
  rw [List.reverse_append, List.reverse_replicate]
  rw [List.takeWhile_append_of_pos (by
    intro a ha; exact hws a (List.mem_reverse.1 ha))]
  simp [List.replicate_succ, hc]

/-- A bar line: at most three spaces, a run of one bar character that is not
empty, and whitespace. The function answers the bar character and true. -/
theorem matchesSetextHeadingBar_bar (k n : Nat) (ws : List Byte) (c : Byte) (hk : k ≤ 3)
    (hn : 1 ≤ n) (hc : c = 61 ∨ c = 45) (hws : ∀ x ∈ ws, util.IsSpace x = true) :
    parser.matchesSetextHeadingBar (List.replicate k 32 ++ List.replicate n c ++ ws) =
      .returned (c, true) := by
  obtain ⟨n, rfl⟩ := Nat.exists_eq_succ_of_ne_zero (Nat.pos_iff_ne_zero.1 hn)
  have hc32 : c ≠ 32 := by rcases hc with h | h <;> (rw [h]; decide)
  have hcsp : util.IsSpace c = false := by rcases hc with h | h <;> (rw [h]; rfl)
  have hne : List.replicate k 32 ++ List.replicate (n + 1) c ++ ws ≠ [] := by
    simp [List.replicate_succ]
  have hspace : util.TrimLeftLength
      (List.replicate k 32 ++ List.replicate (n + 1) c ++ ws) [32] = k := by
    rw [List.append_assoc]
    apply TrimLeftLength_replicate_append
    intro a ha
    simp [List.replicate_succ] at ha
    rw [← ha]; exact hc32
  have hdrop : (List.replicate k 32 ++ List.replicate (n + 1) c ++ ws).drop k =
      List.replicate (n + 1) c ++ ws := by
    rw [List.append_assoc]
    exact List.drop_left' (by simp)
  have hrun : util.TrimLeftLength (List.replicate (n + 1) c ++ ws) [c] = n + 1 := by
    apply TrimLeftLength_replicate_append
    intro a ha
    cases ws with
    | nil => simp at ha
    | cons x ws =>
      simp at ha
      intro hac
      have := hws x (List.mem_cons_self _ _)
      rw [ha, hac, hcsp] at this
      exact absurd this (by decide)
  have htrail : (if util.IsSpace
        ((List.replicate k 32 ++ List.replicate (n + 1) c ++ ws).getLast hne) = true then
        util.TrimRightSpaceLength (List.replicate (n + 1) c ++ ws) else 0) = ws.length := by
    rw [TrimRightSpaceLength_bar c hcsp n ws hws]
    split_ifs with hcond
    · rfl
    · by_contra hlen0
      have hx : ws ≠ [] := by
        intro h
        apply hlen0
        rw [h]
        rfl
      have hl : (List.replicate k 32 ++ List.replicate (n + 1) c ++ ws).getLast hne =
          ws.getLast hx := List.getLast_append_of_ne_nil hx
      exact hcond (by rw [hl]; exact hws _ (List.getLast_mem hx))
  have hlen : (List.replicate k 32 ++ List.replicate (n + 1) c ++ ws).length =
      k + (n + 1) + ws.length := by simp; omega
  rw [matchesSetextHeadingBar_eq _ hne (by rw [hspace]; exact hk)]
  simp only [hspace, hdrop, htrail, hlen]
  rcases hc with h | h
  · subst h
    rw [hrun]
    simp
  · subst h
    have h61 : util.TrimLeftLength (List.replicate (n + 1) 45 ++ ws) [61] = 0 := by
      simp [util.TrimLeftLength, List.replicate_succ]
    rw [hrun, h61]
    simp

/-- Claim C6. For every k in 0..3, every n ≥ 1, every bar character c among
'=' (61) and '-' (45) and every m ≥ 0, the line of k spaces, n copies of c and
m spaces makes matchesSetextHeadingBar return (c, true). -/
theorem C6_bar_is_recognised (k n m : Nat) (c : Byte) (hk : k ≤ 3) (hn : 1 ≤ n)
    (hc : c = 61 ∨ c = 45) :
    parser.matchesSetextHeadingBar
      (List.replicate k 32 ++ List.replicate n c ++ List.replicate m 32) =
        .returned (c, true) :=
  matchesSetextHeadingBar_bar k n (List.replicate m 32) c hk hn hc
    (by intro x hx; rw [List.eq_of_mem_replicate hx]; rfl)

/-- The witness of claim C6: three spaces, the run `--`, two spaces. -/
theorem C6_bar_is_recognised_witness :
    parser.matchesSetextHeadingBar [32, 32, 32, 45, 45, 32, 32] = .returned (45, true) :=
  C6_bar_is_recognised 3 2 2 45 (by decide) (by decide) (Or.inr rfl)

/-- More than three leading spaces: the function answers (0, false). -/
theorem matchesSetextHeadingBar_indented (line : List Byte)
    (h : 3 < util.TrimLeftLength line [32]) :
    parser.matchesSetextHeadingBar line = .returned (0, false) := by
  unfold parser.matchesSetextHeadingBar
  have : ((util.TrimLeftLength line [32] : Nat) : Int) > 3 := by omega
  simp only [this, if_true]

/-- What lies behind a run that ends where the trailing whitespace begins is
whitespace. -/
theorem behind_run_is_space (rest : List Byte) (l : Nat) (b : Bool)
    (h : l + (if b = true then util.TrimRightSpaceLength rest else 0) = rest.length) :
    ∀ x ∈ rest.drop l, util.IsSpace x = true := by
  cases b with
  | true =>
    simp only [if_true] at h
    have : l = rest.length - util.TrimRightSpaceLength rest := by omega
    rw [this]
    exact TrimRightSpaceLength_suffix rest
  | false =>
    simp only [Bool.false_eq_true, if_false, Nat.add_zero] at h
    rw [h, List.drop_length]
    intro x hx
    simp at hx

/-- The shape of a line whose run of `c`, counted behind the leading spaces,
reaches the trailing whitespace. -/
theorem line_shape (line : List Byte) (c : Byte) (b : Bool)
    (hs : util.TrimLeftLength line [32] ≤ 3)
    (hpos : 0 < util.TrimLeftLength (line.drop (util.TrimLeftLength line [32])) [c])
    (hlen : util.TrimLeftLength line [32] +
        util.TrimLeftLength (line.drop (util.TrimLeftLength line [32])) [c] +
        (if b = true then
          util.TrimRightSpaceLength (line.drop (util.TrimLeftLength line [32])) else 0) =
        line.length) :
    ∃ k n ws, k ≤ 3 ∧ 1 ≤ n ∧ (∀ x ∈ ws, util.IsSpace x = true) ∧
      line = List.replicate k 32 ++ List.replicate n c ++ ws := by
  have h1 := TrimLeftLength_split 32 line
  have h2 := TrimLeftLength_split c (line.drop (util.TrimLeftLength line [32]))
  have hle := TrimLeftLength_le line [32]
  generalize util.TrimLeftLength line [32] = space at *
  generalize hr : line.drop space = rest at *
  have hrl : rest.length = line.length - space := by rw [← hr, List.length_drop]
  generalize util.TrimLeftLength rest [c] = n at *
  refine ⟨space, n, rest.drop n, hs, hpos, ?_, ?_⟩
  · apply behind_run_is_space rest n b
    rw [hrl]
    omega
  · rw [List.append_assoc, ← h2]
    exact h1

/-- On a line that is not empty the function returns, and what it returns is
(0, false), ('=', true) or ('-', true). -/
theorem matchesSetextHeadingBar_cases (line : List Byte) (hne : line ≠ []) :
    parser.matchesSetextHeadingBar line = .returned (0, false) ∨
      parser.matchesSetextHeadingBar line = .returned (61, true) ∨
      parser.matchesSetextHeadingBar line = .returned (45, true) := by
  by_cases hs : util.TrimLeftLength line [32] ≤ 3
  · rw [matchesSetextHeadingBar_eq line hne hs]
    split_ifs <;> simp
  · exact Or.inl (matchesSetextHeadingBar_indented line (by omega))

/-- A line that is not empty and is accepted is a bar: at most three spaces, a
run of the answered character that is not empty, and whitespace. -/
theorem matchesSetextHeadingBar_shape (line : List Byte) (hne : line ≠ []) (c : Byte)
    (h : parser.matchesSetextHeadingBar line = .returned (c, true)) :
    (c = 61 ∨ c = 45) ∧
      ∃ k n ws, k ≤ 3 ∧ 1 ≤ n ∧ (∀ x ∈ ws, util.IsSpace x = true) ∧
        line = List.replicate k 32 ++ List.replicate n c ++ ws := by
  by_cases hs : util.TrimLeftLength line [32] ≤ 3
  · rw [matchesSetextHeadingBar_eq line hne hs] at h
    by_cases h1 : (0 < util.TrimLeftLength (line.drop (util.TrimLeftLength line [32])) [61] ∧
            util.TrimLeftLength line [32] +
              util.TrimLeftLength (line.drop (util.TrimLeftLength line [32])) [61] +
              (if util.IsSpace (line.getLast hne) = true then
                util.TrimRightSpaceLength (line.drop (util.TrimLeftLength line [32])) else 0) =
              line.length)
    on_goal 2 => by_cases h2 : (util.TrimLeftLength (line.drop (util.TrimLeftLength line [32])) [61] = 0 ∧
            0 < util.TrimLeftLength (line.drop (util.TrimLeftLength line [32])) [45] ∧
            util.TrimLeftLength line [32] +
              util.TrimLeftLength (line.drop (util.TrimLeftLength line [32])) [45] +
              (if util.IsSpace (line.getLast hne) = true then
                util.TrimRightSpaceLength (line.drop (util.TrimLeftLength line [32])) else 0) =
              line.length)
    · rw [if_pos h1] at h
      have hc : c = 61 := by
        have := (Prod.mk.inj (Outcome.returned.inj h)).1
        exact this.symm
      subst hc
      exact ⟨Or.inl rfl, line_shape line 61 (util.IsSpace (line.getLast hne)) hs h1.1 h1.2⟩
    · rw [if_neg h1, if_pos h2] at h
      have hc : c = 45 := by
        have := (Prod.mk.inj (Outcome.returned.inj h)).1
        exact this.symm
      subst hc
      exact ⟨Or.inr rfl, line_shape line 45 (util.IsSpace (line.getLast hne)) hs h2.2.1 h2.2.2⟩
    · rw [if_neg h1, if_neg h2] at h
      have := (Prod.mk.inj (Outcome.returned.inj h)).2
      exact absurd this (by decide)
  · rw [matchesSetextHeadingBar_indented line (by omega)] at h
    have := (Prod.mk.inj (Outcome.returned.inj h)).2
    exact absurd this (by decide)

/-- A line that is not empty and is not accepted makes the function answer
(0, false). -/
theorem matchesSetextHeadingBar_rejects (line : List Byte) (hne : line ≠ [])
    (h : ∀ c, parser.matchesSetextHeadingBar line ≠ .returned (c, true)) :
    parser.matchesSetextHeadingBar line = .returned (0, false) := by
  rcases matchesSetextHeadingBar_cases line hne with h0 | h1 | h2
  · exact h0
  · exact absurd h1 (h 61)
  · exact absurd h2 (h 45)

/-- The bar characters are not whitespace. -/
theorem bar_not_space (c : Byte) (hc : c = 61 ∨ c = 45) : util.IsSpace c = false := by
  rcases hc with h | h <;> (rw [h]; rfl)

/-- Every byte of a bar is a space, the bar character, or whitespace. -/
theorem mem_bar (k n : Nat) (c b : Byte) (ws : List Byte)
    (hws : ∀ x ∈ ws, util.IsSpace x = true)
    (hb : b ∈ List.replicate k 32 ++ List.replicate n c ++ ws) :
    b = c ∨ util.IsSpace b = true := by
  rcases List.mem_append.1 hb with h | h
  · rcases List.mem_append.1 h with h | h
    · rw [List.eq_of_mem_replicate h]; exact Or.inr rfl
    · exact Or.inl (List.eq_of_mem_replicate h)
  · exact Or.inr (hws b h)

/-- In a bar no whitespace stands between two bar characters. -/
theorem no_space_inside_bar (k n : Nat) (c : Byte) (hc : c = 61 ∨ c = 45) (ws : List Byte)
    (hws : ∀ x ∈ ws, util.IsSpace x = true) (a m z : List Byte) (x y w : Byte)
    (hx : x = 61 ∨ x = 45) (hy : y = 61 ∨ y = 45) (hw : w ∈ m) (hsp : util.IsSpace w = true)
    (h : List.replicate k 32 ++ List.replicate n c ++ ws = a ++ x :: (m ++ y :: z)) : False := by
  have hcs := bar_not_space c hc
  have hxs := bar_not_space x hx
  have hys := bar_not_space y hy
  have hwc : w ∉ List.replicate n c := by
    intro hmem
    rw [List.eq_of_mem_replicate hmem, hcs] at hsp
    exact absurd hsp (by decide)
  have h1 : (List.replicate k 32 ++ List.replicate n c) ++ ws = (a ++ x :: m) ++ (y :: z) := by
    rw [h]; simp
  rcases List.append_eq_append_iff.1 h1 with ⟨a1, e1, e2⟩ | ⟨c1, e1, e2⟩
  · have hyws : y ∈ ws := by rw [e2]; simp
    rw [hws y hyws] at hys
    exact absurd hys (by decide)
  · have e3 : List.replicate k 32 ++ List.replicate n c = a ++ (x :: (m ++ c1)) := by
      rw [e1]; simp
    rcases List.append_eq_append_iff.1 e3 with ⟨a2, _, e5⟩ | ⟨c2, e4, e5⟩
    · apply hwc
      rw [e5]
      simp [hw]
    · cases c2 with
      | nil =>
        apply hwc
        rw [List.nil_append] at e5
        rw [← e5]
        simp [hw]
      | cons x1 t =>
        have hx1 : x ∈ List.replicate k 32 := by
          rw [List.cons_append] at e5
          rw [e4, (List.cons.inj e5).1]
          simp
        rw [List.eq_of_mem_replicate hx1] at hxs
        exact absurd hxs (by decide)

/-- Claim C7. For every line that is not empty: if matchesSetextHeadingBar
returns (c, true), then c is '=' (61) or '-' (45) and the line is at most three
spaces, a run of c that is not empty, and then whitespace only. Consequently
the answer is (0, false) for a line with more than three leading spaces, with
both '=' and '-', with a byte that is neither '=' nor '-' nor whitespace, or
with whitespace between two bar characters. -/
theorem C7_only_bars_are_recognised (line : List Byte) (hne : line ≠ []) :
    (∀ c, parser.matchesSetextHeadingBar line = .returned (c, true) →
      (c = 61 ∨ c = 45) ∧
        ∃ k n ws, k ≤ 3 ∧ 1 ≤ n ∧ (∀ x ∈ ws, util.IsSpace x = true) ∧
          line = List.replicate k 32 ++ List.replicate n c ++ ws) ∧
    (∀ j rest, 3 < j → line = List.replicate j 32 ++ rest →
      parser.matchesSetextHeadingBar line = .returned (0, false)) ∧
    ((61 : Byte) ∈ line → (45 : Byte) ∈ line →
      parser.matchesSetextHeadingBar line = .returned (0, false)) ∧
    (∀ b ∈ line, b ≠ 61 → b ≠ 45 → util.IsSpace b = false →
      parser.matchesSetextHeadingBar line = .returned (0, false)) ∧
    (∀ (a m z : List Byte) (x y w : Byte), line = a ++ x :: (m ++ y :: z) →
      (x = 61 ∨ x = 45) → (y = 61 ∨ y = 45) → w ∈ m → util.IsSpace w = true →
      parser.matchesSetextHeadingBar line = .returned (0, false)) := by
  refine ⟨fun c h => matchesSetextHeadingBar_shape line hne c h, ?_, ?_, ?_, ?_⟩
  · intro j rest hj hl
    apply matchesSetextHeadingBar_indented
    rw [hl]
    unfold util.TrimLeftLength
    rw [List.takeWhile_append_of_pos (by intro a ha; simp [List.eq_of_mem_replicate ha])]
    simp
    omega
  · intro h61 h45
    apply matchesSetextHeadingBar_rejects line hne
    intro c hc
    obtain ⟨hcc, k, n, ws, _, _, hws, hl⟩ := matchesSetextHeadingBar_shape line hne c hc
    rw [hl] at h61 h45
    have e61 : (61 : Byte) = c := by
      rcases mem_bar k n c 61 ws hws h61 with h | h
      · exact h
      · exact absurd h (by decide)
    have e45 : (45 : Byte) = c := by
      rcases mem_bar k n c 45 ws hws h45 with h | h
      · exact h
      · exact absurd h (by decide)
    rw [← e61] at e45
    exact absurd e45 (by decide)
  · intro b hb hb61 hb45 hbs
    apply matchesSetextHeadingBar_rejects line hne
    intro c hc
    obtain ⟨hcc, k, n, ws, _, _, hws, hl⟩ := matchesSetextHeadingBar_shape line hne c hc
    rw [hl] at hb
    rcases mem_bar k n c b ws hws hb with h | h
    · rcases hcc with h1 | h1
      · exact hb61 (h.trans h1)
      · exact hb45 (h.trans h1)
    · rw [hbs] at h
      exact absurd h (by decide)
  · intro a m z x y w hl hx hy hw hsp
    apply matchesSetextHeadingBar_rejects line hne
    intro c hc
    obtain ⟨hcc, k, n, ws, _, _, hws, hl2⟩ := matchesSetextHeadingBar_shape line hne c hc
    exact no_space_inside_bar k n c hcc ws hws a m z x y w hx hy hw hsp (hl2.symm.trans hl)

/-- The witness of claim C7: the line `--` followed by a tab is accepted with
'-', so it is a bar of '-'; the line `= =` has a space inside the run and is
answered (0, false). -/
theorem C7_only_bars_are_recognised_witness :
    (((45 : Byte) = 61 ∨ (45 : Byte) = 45) ∧
      ∃ k n ws, k ≤ 3 ∧ 1 ≤ n ∧ (∀ x ∈ ws, util.IsSpace x = true) ∧
        ([45, 45, 9] : List Byte) = List.replicate k 32 ++ List.replicate n 45 ++ ws) ∧
      parser.matchesSetextHeadingBar [61, 32, 61] = .returned (0, false) :=
  ⟨(C7_only_bars_are_recognised [45, 45, 9] (by decide)).1 45 (by decide),
    (C7_only_bars_are_recognised [61, 32, 61] (by decide)).2.2.2.2 [] [32] [] 61 61 32 rfl
      (Or.inl rfl) (Or.inl rfl) (by decide) (by decide)⟩

/-! ## Theorems: Open and Close -/

/-- The node behind a reference after an in-place change. -/
theorem Tree_modify_node (t : ast.Tree) (v u : ast.NodeRef) (f : ast.Block → ast.Block) :
    (t.modify v f).node u = if u = v then f (t.node v) else t.node u := by
  unfold ast.Tree.modify
  by_cases h : u = v
  · subst h; simp
  · simp [Function.update, h]

/-- The empty line makes the function panic: the read at `len - 1` is out of
range. -/
theorem matchesSetextHeadingBar_nil :
    parser.matchesSetextHeadingBar [] = .panicked .indexOutOfRange := by
  decide

/-- Open, once the last opened block is a paragraph below the proposed parent
and the peeked line is accepted. -/
theorem Open_accepts (b : parser.setextHeadingParser) (t : ast.Tree)
    (parent : Option ast.NodeRef) (reader : text.Reader) (pc : parser.Context)
    (last : ast.NodeRef) (c : Byte) (h1 : pc.LastOpenedBlock = some last)
    (h2 : (t.node last).kind = .Paragraph) (h3 : (t.node last).parent = parent)
    (h4 : parser.matchesSetextHeadingBar reader.PeekLine.1 = .returned (c, true)) :
    b.Open t parent reader pc = .returned
      { node := some t.fresh, state := .NoChildren
        tree := (t.NewHeading (if c = 45 then 2 else 1)).1.AppendLine t.fresh reader.PeekLine.2
        pc := pc.Set parser.temporaryParagraphKey (.node last) } := by
  unfold parser.setextHeadingParser.Open
  simp only [h1]
  have hn : ¬ (¬ (t.node last).kind = ast.NodeKind.Paragraph ∨ (t.node last).parent ≠ parent) := by
    simp [h2, h3]
  rw [if_neg hn, h4]
  simp [ast.Tree.NewHeading, ast.Tree.alloc]

/-- Open returns a node only in the situation of `Open_accepts`. -/
theorem Open_node (b : parser.setextHeadingParser) (t : ast.Tree)
    (parent : Option ast.NodeRef) (reader : text.Reader) (pc : parser.Context)
    (res : parser.OpenResult) (v : ast.NodeRef)
    (h : b.Open t parent reader pc = .returned res) (hv : res.node = some v) :
    ∃ last c, pc.LastOpenedBlock = some last ∧ (t.node last).kind = .Paragraph ∧
      (t.node last).parent = parent ∧
      parser.matchesSetextHeadingBar reader.PeekLine.1 = .returned (c, true) := by
  unfold parser.setextHeadingParser.Open at h
  cases h1 : pc.LastOpenedBlock with
  | none =>
    simp only [h1] at h
    cases h
    simp at hv
  | some last =>
    simp only [h1] at h
    by_cases hn : ¬ (t.node last).kind = ast.NodeKind.Paragraph ∨ (t.node last).parent ≠ parent
    · rw [if_pos hn] at h
      cases h
      simp at hv
    · rw [if_neg hn] at h
      have hk : (t.node last).kind = ast.NodeKind.Paragraph := by
        by_contra hk; exact hn (Or.inl hk)
      have hp : (t.node last).parent = parent := by
        by_contra hp; exact hn (Or.inr hp)
      cases hm : parser.matchesSetextHeadingBar reader.PeekLine.1 with
      | panicked f => rw [hm] at h; cases h
      | returned m =>
        rw [hm] at h
        simp only [Outcome.bind_returned] at h
        by_cases hok : m.2 = true
        · exact ⟨last, m.1, rfl, hk, hp, by rw [← hok]⟩
        · rw [if_pos hok] at h
          cases h
          simp at hv

/-- The heading Open allocates: its kind and its single line. -/
theorem Open_heading (t : ast.Tree) (level : Int) (seg : text.Segment) :
    (((t.NewHeading level).1.AppendLine t.fresh seg).node t.fresh).kind = .Heading level ∧
      (((t.NewHeading level).1.AppendLine t.fresh seg).node t.fresh).lines = [seg] := by
  simp [ast.Tree.AppendLine, Tree_modify_node, ast.Tree.NewHeading, ast.Tree.alloc, ast.newBlock]

/-- Claim C8. Whenever Open returns a node, the node is a Heading of level 1
and the peeked line was accepted as a bar of '=' (61), or it is a Heading of
level 2 and the line was accepted as a bar of '-' (45): no other level is
produced. And every bar (at most three spaces, a run of the bar character that
is not empty, whitespace) below an open paragraph of the parent gets its
level: 1 for '=', 2 for '-'. -/
theorem C8_heading_level (b : parser.setextHeadingParser) (t : ast.Tree)
    (parent : Option ast.NodeRef) (reader : text.Reader) (pc : parser.Context) :
    (∀ res v, b.Open t parent reader pc = .returned res → res.node = some v →
      (parser.matchesSetextHeadingBar reader.PeekLine.1 = .returned (61, true) ∧
          (res.tree.node v).kind = .Heading 1) ∨
        (parser.matchesSetextHeadingBar reader.PeekLine.1 = .returned (45, true) ∧
          (res.tree.node v).kind = .Heading 2)) ∧
    (∀ (last : ast.NodeRef) (k n : Nat) (ws : List Byte) (c : Byte),
      pc.LastOpenedBlock = some last → (t.node last).kind = .Paragraph →
      (t.node last).parent = parent → k ≤ 3 → 1 ≤ n → (c = 61 ∨ c = 45) →
      (∀ x ∈ ws, util.IsSpace x = true) →
      reader.PeekLine.1 = List.replicate k 32 ++ List.replicate n c ++ ws →
      ∃ res v, b.Open t parent reader pc = .returned res ∧ res.node = some v ∧
        (res.tree.node v).kind = .Heading (if c = 61 then 1 else 2)) := by
  constructor
  · intro res v h hv
    obtain ⟨last, c, h1, h2, h3, h4⟩ := Open_node b t parent reader pc res v h hv
    have hne : reader.PeekLine.1 ≠ [] := by
      intro hnil
      rw [hnil, matchesSetextHeadingBar_nil] at h4
      cases h4
    have hc := (matchesSetextHeadingBar_shape _ hne c h4).1
    rw [Open_accepts b t parent reader pc last c h1 h2 h3 h4] at h
    cases h
    simp only [Option.some.injEq] at hv
    subst hv
    rcases hc with hc | hc
    · subst hc
      exact Or.inl ⟨h4, (Open_heading t 1 reader.PeekLine.2).1⟩
    · subst hc
      exact Or.inr ⟨h4, (Open_heading t 2 reader.PeekLine.2).1⟩
  · intro last k n ws c h1 h2 h3 hk hn hc hws hl
    have h4 : parser.matchesSetextHeadingBar reader.PeekLine.1 = .returned (c, true) := by
      rw [hl]; exact matchesSetextHeadingBar_bar k n ws c hk hn hc hws
    refine ⟨_, t.fresh, Open_accepts b t parent reader pc last c h1 h2 h3 h4, rfl, ?_⟩
    rcases hc with hc | hc
    · subst hc
      exact (Open_heading t 1 reader.PeekLine.2).1
    · subst hc
      exact (Open_heading t 2 reader.PeekLine.2).1

/-- The witness of claim C8: the bar line `---`, two spaces, line feed gives a
Heading of level 2. -/
theorem C8_heading_level_witness :
    ∃ res v, plainParser.Open titleTree (some 0) subReader titleContext = .returned res ∧
      res.node = some v ∧ (res.tree.node v).kind = .Heading 2 :=
  (C8_heading_level plainParser titleTree (some 0) subReader titleContext).2 1 0 3 [32, 32, 10] 45
    rfl rfl rfl (by decide) (by decide) (Or.inr rfl) (by decide) rfl

/-- Claim C9. Open returns a node (and then a Heading) if and only if the most
recently opened block of the context exists, is a Paragraph whose parent is the
proposed parent, and the current line of the reader is accepted by
matchesSetextHeadingBar. Whenever Open returns, the state is NoChildren; and
Open returns whenever the current line is not empty. -/
theorem C9_open_iff (b : parser.setextHeadingParser) (t : ast.Tree)
    (parent : Option ast.NodeRef) (reader : text.Reader) (pc : parser.Context) :
    ((∃ res v, b.Open t parent reader pc = .returned res ∧ res.node = some v) ↔
      ∃ last, pc.LastOpenedBlock = some last ∧ (t.node last).kind = .Paragraph ∧
        (t.node last).parent = parent ∧
        ∃ c, parser.matchesSetextHeadingBar reader.PeekLine.1 = .returned (c, true)) ∧
    (∀ res v, b.Open t parent reader pc = .returned res → res.node = some v →
      ∃ level, (res.tree.node v).kind = .Heading level) ∧
    (∀ res, b.Open t parent reader pc = .returned res → res.state = .NoChildren) ∧
    (reader.PeekLine.1 ≠ [] → ∃ res, b.Open t parent reader pc = .returned res) := by
  refine ⟨⟨?_, ?_⟩, ?_, ?_, ?_⟩
  · rintro ⟨res, v, h, hv⟩
    obtain ⟨last, c, h1, h2, h3, h4⟩ := Open_node b t parent reader pc res v h hv
    exact ⟨last, h1, h2, h3, c, h4⟩
  · rintro ⟨last, h1, h2, h3, c, h4⟩
    exact ⟨_, t.fresh, Open_accepts b t parent reader pc last c h1 h2 h3 h4, rfl⟩
  · intro res v h hv
    obtain ⟨last, c, h1, h2, h3, h4⟩ := Open_node b t parent reader pc res v h hv
    rw [Open_accepts b t parent reader pc last c h1 h2 h3 h4] at h
    cases h
    simp only [Option.some.injEq] at hv
    subst hv
    exact ⟨_, (Open_heading t _ reader.PeekLine.2).1⟩
  · intro res h
    unfold parser.setextHeadingParser.Open at h
    cases h1 : pc.LastOpenedBlock with
    | none => simp only [h1] at h; cases h; rfl
    | some last =>
      simp only [h1] at h
      split_ifs at h with hn
      · cases h; rfl
      · cases hm : parser.matchesSetextHeadingBar reader.PeekLine.1 with
        | panicked f => rw [hm] at h; cases h
        | returned m =>
          rw [hm] at h
          simp only [Outcome.bind_returned] at h
          split_ifs at h <;> (cases h; rfl)
  · intro hne
    unfold parser.setextHeadingParser.Open
    cases h1 : pc.LastOpenedBlock with
    | none => exact ⟨_, rfl⟩
    | some last =>
      simp only
      split_ifs with hn
      · exact ⟨_, rfl⟩
      · rcases matchesSetextHeadingBar_cases _ hne with hm | hm | hm <;>
          (rw [hm]; simp only [Outcome.bind_returned]; split_ifs <;> exact ⟨_, rfl⟩)

/-- The witness of claim C9: on the title input Open returns the heading, with
state NoChildren; with no last opened block it returns no node. -/
theorem C9_open_iff_witness :
    (∃ res v, plainParser.Open titleTree (some 0) titleReader titleContext = .returned res ∧
      res.node = some v) ∧
    (∃ res, plainParser.Open titleTree (some 0) titleReader
        { titleContext with LastOpenedBlock := none } = .returned res ∧
      res.node = none ∧ res.state = .NoChildren) :=
  ⟨(C9_open_iff plainParser titleTree (some 0) titleReader titleContext).1.2
      ⟨1, rfl, rfl, rfl, 61, by decide⟩,
    ⟨_, rfl, rfl,
      (C9_open_iff plainParser titleTree (some 0) titleReader
        { titleContext with LastOpenedBlock := none }).2.2.1 _ rfl⟩⟩

/-- Claim C10. Normal promotion, with attribute parsing and auto-ID disabled:
for a heading as Open makes it (a Heading that holds the bar segment as its only
line, with the paragraph stashed in the context) whose stashed Paragraph has at
least one line, Close returns, and afterwards the lines of the Heading are the
former lines of the Paragraph in the same order (the bar segment is among them
only if it was a line of the Paragraph), the Heading carries the Paragraph's
blank-previous-lines flag, the Paragraph is no child of its former parent and
has no parent, and the other children of that parent keep their order. -/
theorem C10_normal_promotion (b : parser.setextHeadingParser) (ext : parser.Collaborators)
    (t : ast.Tree) (node : ast.NodeRef) (reader : text.Reader) (pc : parser.Context)
    (tmp p : ast.NodeRef) (seg : text.Segment) (level : Int)
    (hA : b.Attribute = false) (hI : b.AutoHeadingID = false)
    (hk : (t.node node).kind = .Heading level) (hl : (t.node node).lines = [seg])
    (hst : pc.Get parser.temporaryParagraphKey = .node tmp)
    (hpk : (t.node tmp).kind = .Paragraph) (hpl : (t.node tmp).lines ≠ [])
    (hpp : (t.node tmp).parent = some p) :
    ∃ t1 pc1, b.Close ext t node reader pc = .returned (t1, pc1) ∧
      (t1.node node).kind = .Heading level ∧
      (t1.node node).lines = (t.node tmp).lines ∧
      (seg ∉ (t.node tmp).lines → seg ∉ (t1.node node).lines) ∧
      (t1.node node).blankPreviousLines = (t.node tmp).blankPreviousLines ∧
      tmp ∉ (t1.node p).children ∧
      (t1.node p).children = (t.node p).children.filter (fun c => c ≠ tmp) ∧
      (t1.node tmp).parent = none ∧
      pc1.Get parser.temporaryParagraphKey = .nil := by
  have hne : tmp ≠ node := by
    intro h
    rw [h, hk] at hpk
    cases hpk
  have hlen : ¬ (t.node tmp).lines.length = 0 := by
    intro h
    exact hpl (List.length_eq_zero.1 h)
  have hclose : parser.setextHeadingParser.closeBlock t node reader pc = .returned
      ((((t.SetLines node []).SetLines node (t.node tmp).lines).SetBlankPreviousLines node
          (t.node tmp).blankPreviousLines).RemoveChild p tmp,
        pc.Set parser.temporaryParagraphKey .nil) := by
    unfold parser.setextHeadingParser.closeBlock
    simp only [hk, hl, hst, goIndex]
    simp [ast.Tree.SetLines, ast.Tree.SetBlankPreviousLines, Tree_modify_node, hne, hpk, hlen,
      hpp]
  refine ⟨(((t.SetLines node []).SetLines node (t.node tmp).lines).SetBlankPreviousLines node
      (t.node tmp).blankPreviousLines).RemoveChild p tmp,
    pc.Set parser.temporaryParagraphKey .nil, ?_, ?_⟩
  · unfold parser.setextHeadingParser.Close
    rw [hclose]
    simp [hA, hI]
  · have hnode : node ≠ tmp := Ne.symm hne
    refine ⟨?_, ?_, ?_, ?_, ?_, ?_, ?_, ?_⟩
    · by_cases h1 : node = p
      · subst h1
        simp [ast.Tree.RemoveChild, ast.Tree.SetLines, ast.Tree.SetBlankPreviousLines,
          Tree_modify_node, hpp, hne, hnode, hk]
      · by_cases h2 : p = tmp
        · subst h2
          simp [ast.Tree.RemoveChild, ast.Tree.SetLines, ast.Tree.SetBlankPreviousLines,
            Tree_modify_node, hpp, hne, hnode, hk]
        · simp [ast.Tree.RemoveChild, ast.Tree.SetLines, ast.Tree.SetBlankPreviousLines,
            Tree_modify_node, hpp, hne, hnode, hk, h1, h2, Ne.symm h1, Ne.symm h2]
    · by_cases h1 : node = p
      · subst h1
        simp [ast.Tree.RemoveChild, ast.Tree.SetLines, ast.Tree.SetBlankPreviousLines,
          Tree_modify_node, hpp, hne, hnode, hk]
      · by_cases h2 : p = tmp
        · subst h2
          simp [ast.Tree.RemoveChild, ast.Tree.SetLines, ast.Tree.SetBlankPreviousLines,
            Tree_modify_node, hpp, hne, hnode, hk]
        · simp [ast.Tree.RemoveChild, ast.Tree.SetLines, ast.Tree.SetBlankPreviousLines,
            Tree_modify_node, hpp, hne, hnode, hk, h1, h2, Ne.symm h1, Ne.symm h2]
    · intro hs
      by_cases h1 : node = p
      · subst h1
        simp [ast.Tree.RemoveChild, ast.Tree.SetLines, ast.Tree.SetBlankPreviousLines,
          Tree_modify_node, hpp, hne, hnode, hk, hs]
      · by_cases h2 : p = tmp
        · subst h2
          simp [ast.Tree.RemoveChild, ast.Tree.SetLines, ast.Tree.SetBlankPreviousLines,
            Tree_modify_node, hpp, hne, hnode, hk, hs]
        · simp [ast.Tree.RemoveChild, ast.Tree.SetLines, ast.Tree.SetBlankPreviousLines,
            Tree_modify_node, hpp, hne, hnode, hk, h1, h2, Ne.symm h1, Ne.symm h2, hs]
    · by_cases h1 : node = p
      · subst h1
        simp [ast.Tree.RemoveChild, ast.Tree.SetLines, ast.Tree.SetBlankPreviousLines,
          Tree_modify_node, hpp, hne, hnode, hk]
      · by_cases h2 : p = tmp
        · subst h2
          simp [ast.Tree.RemoveChild, ast.Tree.SetLines, ast.Tree.SetBlankPreviousLines,
            Tree_modify_node, hpp, hne, hnode, hk]
        · simp [ast.Tree.RemoveChild, ast.Tree.SetLines, ast.Tree.SetBlankPreviousLines,
            Tree_modify_node, hpp, hne, hnode, hk, h1, h2, Ne.symm h1, Ne.symm h2]
    · by_cases h1 : node = p
      · subst h1
        simp [ast.Tree.RemoveChild, ast.Tree.SetLines, ast.Tree.SetBlankPreviousLines,
          Tree_modify_node, hpp, hne, hnode, hk]
      · by_cases h2 : p = tmp
        · subst h2
          simp [ast.Tree.RemoveChild, ast.Tree.SetLines, ast.Tree.SetBlankPreviousLines,
            Tree_modify_node, hpp, hne, hnode, hk]
        · simp [ast.Tree.RemoveChild, ast.Tree.SetLines, ast.Tree.SetBlankPreviousLines,
            Tree_modify_node, hpp, hne, hnode, hk, h1, h2, Ne.symm h1, Ne.symm h2]
    · by_cases h1 : node = p
      · subst h1
        simp [ast.Tree.RemoveChild, ast.Tree.SetLines, ast.Tree.SetBlankPreviousLines,
          Tree_modify_node, hpp, hne, hnode, hk]
      · by_cases h2 : p = tmp
        · subst h2
          simp [ast.Tree.RemoveChild, ast.Tree.SetLines, ast.Tree.SetBlankPreviousLines,
            Tree_modify_node, hpp, hne, hnode, hk]
        · simp [ast.Tree.RemoveChild, ast.Tree.SetLines, ast.Tree.SetBlankPreviousLines,
            Tree_modify_node, hpp, hne, hnode, hk, h1, h2, Ne.symm h1, Ne.symm h2]
    · by_cases h1 : node = p
      · subst h1
        simp [ast.Tree.RemoveChild, ast.Tree.SetLines, ast.Tree.SetBlankPreviousLines,
          Tree_modify_node, hpp, hne, hnode, hk]
      · by_cases h2 : p = tmp
        · subst h2
          simp [ast.Tree.RemoveChild, ast.Tree.SetLines, ast.Tree.SetBlankPreviousLines,
            Tree_modify_node, hpp, hne, hnode, hk]
        · simp [ast.Tree.RemoveChild, ast.Tree.SetLines, ast.Tree.SetBlankPreviousLines,
            Tree_modify_node, hpp, hne, hnode, hk, h1, h2, Ne.symm h1, Ne.symm h2]
    · simp [parser.Context.Get, parser.Context.Set]

/-- The witness of claim C10: the source `Title`, line feed, `===`, line feed.
Open makes the heading (node 2) of level 1 and stashes the paragraph; after
Close the heading holds the single line `Title`, the document has the heading
as its only child and the paragraph is detached. -/
theorem C10_normal_promotion_witness :
    (∃ res, plainParser.Open titleTree (some 0) titleReader titleContext = .returned res ∧
      res.node = some 2 ∧ (res.tree.node 2).kind = .Heading 1 ∧
      (res.tree.node 2).lines = [{ Start := 6, Stop := 10 }] ∧
      res.pc.Get parser.temporaryParagraphKey = .node 1) ∧
    (∃ t1 pc1, plainParser.Close idleCollaborators titleAttachedTree 2 titleReader
        titleOpenedContext = .returned (t1, pc1) ∧
      (t1.node 2).kind = .Heading 1 ∧
      (t1.node 2).lines = [{ Start := 0, Stop := 5 }] ∧
      (t1.node 0).children = [2] ∧
      (t1.node 1).parent = none) ∧
    text.Segment.Value { Start := 0, Stop := 5 } titleSource =
      .returned [84, 105, 116, 108, 101] := by
  refine ⟨⟨_, rfl, rfl, rfl, rfl, rfl⟩, ?_, by decide⟩
  obtain ⟨t1, pc1, h, hk, hl, _, _, _, hc, hp, _⟩ :=
    C10_normal_promotion plainParser idleCollaborators titleAttachedTree 2 titleReader
      titleOpenedContext 1 0 { Start := 6, Stop := 10 } 1 rfl rfl rfl rfl rfl rfl (by decide) rfl
  exact ⟨t1, pc1, h, hk, hl, hc, hp⟩

/-! ## Theorems: the bounds of the bar matcher -/

/-- Claim C20. On every line the slices `line[start:end]` that
matchesSetextHeadingBar takes are all the slice from the count of leading
spaces to the length of the line, which is in range; on a line that is not
empty the read of `line[end-1]` is in range and the function returns; the read
is out of range, and the function panics, exactly on the line of length 0. -/
theorem C20_bar_reads_in_range (line : List Byte) :
    (0 ≤ (0 : Int) + (util.TrimLeftLength line [32] : Int) ∧
      (0 : Int) + (util.TrimLeftLength line [32] : Int) ≤ (line.length : Int) ∧
      goSlice line (0 + (util.TrimLeftLength line [32] : Int)) (line.length : Int) =
        .returned (line.drop (util.TrimLeftLength line [32]))) ∧
    (line ≠ [] → ∃ c, goIndex line ((line.length : Int) - 1) = .returned c) ∧
    (line ≠ [] → ∃ r, parser.matchesSetextHeadingBar line = .returned r) ∧
    (goIndex line ((line.length : Int) - 1) = .panicked .indexOutOfRange ↔ line = []) ∧
    ((∃ f, parser.matchesSetextHeadingBar line = .panicked f) ↔ line = []) := by
  have hle := TrimLeftLength_le line [32]
  refine ⟨⟨by omega, by omega, goSlice_suffix line _ hle⟩, ?_, ?_, ?_, ?_⟩
  · intro hne
    exact ⟨_, goIndex_last line hne⟩
  · intro hne
    rcases matchesSetextHeadingBar_cases line hne with h | h | h <;> exact ⟨_, h⟩
  · constructor
    · intro h
      by_contra hne
      rw [goIndex_last line hne] at h
      cases h
    · intro h
      subst h
      decide
  · constructor
    · rintro ⟨f, h⟩
      by_contra hne
      rcases matchesSetextHeadingBar_cases line hne with h1 | h1 | h1 <;>
        (rw [h1] at h; cases h)
    · intro h
      subst h
      exact ⟨_, matchesSetextHeadingBar_nil⟩

/-! ## Theorems: the configuration -/

/-- The lookup after an assignment. -/
theorem OptionMap_get_set {V : Type} (name k : OptionName) (v : V) :
    ∀ m : OptionMap V, (m.set k v).get name = if k = name then some v else m.get name
  | [] => by simp [OptionMap.set, OptionMap.get]
  | (k1, v1) :: rest => by
    have ih := OptionMap_get_set name k v rest
    by_cases h1 : k1 = k
    · subst h1
      by_cases h2 : k1 = name <;> simp [OptionMap.set, OptionMap.get, h2]
    · by_cases h2 : k1 = name
      · subst h2
        have h3 : ¬ k = k1 := fun h => h1 h.symm
        simp [OptionMap.set, OptionMap.get, h1, h3]
      · simp [OptionMap.set, OptionMap.get, h1, h2, ih]

/-- The options map after a list of options was applied to a config: the last
`WithOption` for the name decides, and without one the entry is as before. -/
theorem foldl_apply_get {σ V : Type} (name : OptionName) :
    ∀ (os : List (RendererOption σ V)) (c : Config σ V),
      (os.foldl (fun c opt => opt.apply c) c).Options.get name =
        match lastWithOption name os with
        | some v => some v
        | none => c.Options.get name
  | [], c => by simp [lastWithOption]
  | o :: os, c => by
    rw [List.foldl_cons, foldl_apply_get name os (o.apply c)]
    cases h : lastWithOption name os with
    | some v => simp [lastWithOption, h]
    | none =>
      cases o with
      | withNodeRenderers value => simp [lastWithOption, h, RendererOption.apply]
      | withOption n v =>
        by_cases hn : n = name <;>
          simp [lastWithOption, h, RendererOption.apply, OptionMap_get_set, hn]

/-- The options map and the registrations after a list of options was applied
to a config. -/
theorem foldl_apply_parts {σ V : Type} :
    ∀ (os : List (RendererOption σ V)) (c : Config σ V),
      (os.foldl (fun c opt => opt.apply c) c).Options =
          ((os.filter RendererOption.isWithOption).foldl (fun c opt => opt.apply c) c).Options ∧
        (os.foldl (fun c opt => opt.apply c) c).NodeRenderers =
          c.NodeRenderers ++ registrations os
  | [], c => by simp [registrations]
  | .withNodeRenderers value :: os, c => by
    have ih := foldl_apply_parts os (RendererOption.apply (.withNodeRenderers value) c)
    constructor
    · rw [List.foldl_cons, ih.1]
      simp only [List.filter_cons, RendererOption.isWithOption, Bool.false_eq_true, if_false]
      generalize os.filter RendererOption.isWithOption = ws
      have key : ∀ (ws : List (RendererOption σ V)) (c1 c2 : Config σ V),
          c1.Options = c2.Options →
          (ws.foldl (fun c opt => opt.apply c) c1).Options =
            (ws.foldl (fun c opt => opt.apply c) c2).Options := by
        intro ws
        induction ws with
        | nil => intro c1 c2 h; exact h
        | cons w ws ihw =>
          intro c1 c2 h
          rw [List.foldl_cons, List.foldl_cons]
          apply ihw
          cases w <;> simp [RendererOption.apply, h]
      exact key ws _ _ rfl
    · rw [List.foldl_cons, ih.2]
      simp [RendererOption.apply, registrations]
  | .withOption n v :: os, c => by
    have ih := foldl_apply_parts os (RendererOption.apply (.withOption n v) c)
    constructor
    · rw [List.foldl_cons, ih.1]
      simp [List.filter_cons, RendererOption.isWithOption]
    · rw [List.foldl_cons, ih.2]
      simp [RendererOption.apply, registrations]

/-- Before the first Render, AddOption calls complete and apply the options to
the config in order. -/
theorem addOptions_config {σ V : Type} :
    ∀ (os : List (RendererOption σ V)) (r : renderer σ V) (c : Config σ V),
      r.config = some c →
      r.addOptions os = ({ r with config := some (os.foldl (fun c opt => opt.apply c) c) }, [])
  | [], r, c, h => by
    simp only [renderer.addOptions, List.foldl_nil]
    rw [← h]
  | o :: os, r, c, h => by
    have h1 : r.AddOption o = ({ r with config := some (o.apply c) }, none) := by
      simp [renderer.AddOption, RendererOption.SetConfig, h]
    simp only [renderer.addOptions, h1, List.foldl_cons]
    rw [addOptions_config os { r with config := some (o.apply c) } (o.apply c) rfl]

/-- The list has a last `WithOption` for the name exactly when it has one. -/
theorem lastWithOption_isSome {σ V : Type} (name : OptionName) :
    ∀ os : List (RendererOption σ V),
      (∃ v, lastWithOption name os = some v) ↔ ∃ v, RendererOption.withOption name v ∈ os
  | [] => by simp [lastWithOption]
  | o :: os => by
    have ih := lastWithOption_isSome name os
    cases h : lastWithOption name os with
    | some v =>
      have h1 : ∃ v, RendererOption.withOption name v ∈ os := ih.1 ⟨v, h⟩
      obtain ⟨v1, hv1⟩ := h1
      constructor
      · intro _
        exact ⟨v1, List.mem_cons_of_mem _ hv1⟩
      · intro _
        exact ⟨v, by simp [lastWithOption, h]⟩
    | none =>
      have h2 : ¬ ∃ v, RendererOption.withOption name v ∈ os := by
        intro hex
        obtain ⟨v, hv⟩ := ih.2 hex
        rw [h] at hv
        cases hv
      cases o with
      | withNodeRenderers value =>
        constructor
        · rintro ⟨v, hv⟩
          simp [lastWithOption, h] at hv
        · rintro ⟨v, hv⟩
          rcases List.mem_cons.1 hv with hv | hv
          · cases hv
          · exact absurd ⟨v, hv⟩ h2
      | withOption n v =>
        by_cases hn : n = name
        · subst hn
          constructor
          · intro _
            exact ⟨v, List.mem_cons_self _ _⟩
          · intro _
            exact ⟨v, by simp [lastWithOption, h]⟩
        · constructor
          · rintro ⟨v1, hv1⟩
            simp [lastWithOption, h, hn] at hv1
          · rintro ⟨v1, hv1⟩
            rcases List.mem_cons.1 hv1 with hv1 | hv1
            · injection hv1 with e1 e2
              exact absurd e1.symm hn
            · exact absurd ⟨v1, hv1⟩ h2

/-- Claim C13. For every list of options given to NewRenderer and every list
of options given to AddOption before the first Render: all calls complete, and
for every option name the options map of the config holds the name if and only
if some WithOption of the combined list set it, and then maps it to the value
of the last such WithOption; the options map is the same as if the
WithNodeRenderers options had been left out; and this is the options map the
first Render installs. -/
theorem C13_options_last_writer_wins {σ V : Type} (given added : List (RendererOption σ V)) :
    ∃ c : Config σ V,
      (NewRenderer given).addOptions added =
        ({ NewRenderer given with config := some c }, []) ∧
      (∀ name, c.Options.get name = lastWithOption name (given ++ added)) ∧
      (∀ name, (∃ v, c.Options.get name = some v) ↔
        ∃ v, RendererOption.withOption name v ∈ given ++ added) ∧
      c.Options =
        (((given ++ added).filter RendererOption.isWithOption).foldl
          (fun c opt => opt.apply c) (NewConfig : Config σ V)).Options ∧
      ∀ (w : IOWriter σ) (source : List Byte) (n : ast.Node) (st : σ),
        (((NewRenderer given).addOptions added).1.Render w source n st).r.options = c.Options := by
  have hadd := addOptions_config added (NewRenderer given)
    (given.foldl (fun (c : Config σ V) (opt : RendererOption σ V) => opt.apply c) NewConfig) rfl
  have hget : ∀ name, ((given ++ added).foldl (fun c opt => opt.apply c)
      (NewConfig : Config σ V)).Options.get name = lastWithOption name (given ++ added) := by
    intro name
    rw [foldl_apply_get]
    cases lastWithOption name (given ++ added) with
    | some v => rfl
    | none => rfl
  refine ⟨(given ++ added).foldl (fun c opt => opt.apply c) NewConfig, ?_, hget, ?_, ?_, ?_⟩
  · rw [hadd, List.foldl_append]
  · intro name
    rw [hget]
    exact lastWithOption_isSome name (given ++ added)
  · exact (foldl_apply_parts (given ++ added) NewConfig).1
  · intro w source n st
    rw [hadd, Render_r, List.foldl_append]
    simp [renderer.initOnce, renderer.setup, NewRenderer]

/-- The setup loop appends to the chain the NodeRenderer side of every
registration, in the order of the list. -/
theorem collectNodeRenderers_chain {σ V : Type} (options : OptionMap V) :
    ∀ (vs : List (util.PrioritizedValue (Registered σ V))) (i : Nat)
      (chain : List (Option (NodeRenderer σ))) (w : σ × List (Event V)),
      (collectNodeRenderers options vs i chain w).1 =
        chain ++ vs.map (fun v => v.Value.asNodeRenderer)
  | [], _, chain, _ => by simp [collectNodeRenderers]
  | v :: vs, i, chain, w => by
    rw [collectNodeRenderers, collectNodeRenderers_chain options vs]
    simp

/-- The insertion of a registration keeps the registrations of every priority
in their order, the inserted one first among its equals. -/
theorem filter_orderedInsert {α : Type} (p : Int) (a : util.PrioritizedValue α) :
    ∀ l : List (util.PrioritizedValue α),
      (List.orderedInsert (fun a b : util.PrioritizedValue α => a.Priority ≤ b.Priority) a l).filter
          (fun x => decide (x.Priority = p)) =
        if a.Priority = p then a :: l.filter (fun x => decide (x.Priority = p))
        else l.filter (fun x => decide (x.Priority = p))
  | [] => by
    by_cases h : a.Priority = p <;> simp [h]
  | b :: l => by
    have ih := filter_orderedInsert p a l
    by_cases hab : a.Priority ≤ b.Priority
    · simp only [List.orderedInsert, hab, if_true]
      by_cases h : a.Priority = p <;> simp [List.filter_cons, h]
    · simp only [List.orderedInsert, hab, if_false]
      rw [List.filter_cons, ih]
      by_cases h : a.Priority = p
      · have hb : ¬ b.Priority = p := by omega
        simp [h, hb, List.filter_cons]
      · simp [h, List.filter_cons]

/-- The sort keeps the registrations of every priority in their order. -/
theorem filter_Sort {α : Type} (p : Int) :
    ∀ l : List (util.PrioritizedValue α),
      (util.PrioritizedSlice.Sort l).filter (fun x => decide (x.Priority = p)) =
        l.filter (fun x => decide (x.Priority = p))
  | [] => by simp [util.PrioritizedSlice.Sort]
  | a :: l => by
    have ih := filter_Sort p l
    unfold util.PrioritizedSlice.Sort at ih ⊢
    rw [List.insertionSort, filter_orderedInsert, ih]
    by_cases h : a.Priority = p <;> simp [List.filter_cons, h]

/-- Claim C14. After the setup of the first Render call the serializer chain is
the NodeRenderer side of the sorted registrations, where the sorted
registrations are a permutation of the accumulated registrations of all
WithNodeRenderers options (none dropped, none duplicated), are in ascending
order of priority, and hold the registrations of every priority in their
registration order. -/
theorem C14_chain_sorted_stable {σ V : Type} (given added : List (RendererOption σ V))
    (w : IOWriter σ) (source : List Byte) (n : ast.Node) (st : σ) :
    (((NewRenderer given).addOptions added).1.Render w source n st).r.nodeRenderers =
        (util.PrioritizedSlice.Sort (registrations (given ++ added))).map
          (fun v => v.Value.asNodeRenderer) ∧
      (util.PrioritizedSlice.Sort (registrations (given ++ added))).Perm
        (registrations (given ++ added)) ∧
      (util.PrioritizedSlice.Sort (registrations (given ++ added))).Pairwise
        (fun a b => a.Priority ≤ b.Priority) ∧
      ∀ p : Int,
        (util.PrioritizedSlice.Sort (registrations (given ++ added))).filter
            (fun x => decide (x.Priority = p)) =
          (registrations (given ++ added)).filter (fun x => decide (x.Priority = p)) := by
  have hadd := addOptions_config added (NewRenderer given)
    (given.foldl (fun (c : Config σ V) (opt : RendererOption σ V) => opt.apply c) NewConfig) rfl
  refine ⟨?_, ?_, ?_, fun p => filter_Sort p _⟩
  · rw [hadd, Render_r, ← List.foldl_append]
    have hreg := (foldl_apply_parts (given ++ added) (NewConfig : Config σ V)).2
    simp only [renderer.initOnce, renderer.setup, NewRenderer, Bool.false_eq_true, if_false]
    rw [collectNodeRenderers_chain, hreg]
    simp [NewConfig]
  · exact List.perm_insertionSort _ _
  · haveI : IsTotal (util.PrioritizedValue (Registered σ V))
        (fun a b => a.Priority ≤ b.Priority) := ⟨fun a b => le_total a.Priority b.Priority⟩
    haveI : IsTrans (util.PrioritizedValue (Registered σ V))
        (fun a b => a.Priority ≤ b.Priority) := ⟨fun a b c h1 h2 => le_trans h1 h2⟩
    exact List.sorted_insertionSort (fun a b : util.PrioritizedValue (Registered σ V) =>
      a.Priority ≤ b.Priority) _

/-- The option propagation to one SetOptioner appends one SetOption call per
entry of the options map, in the order of the map. -/
theorem propagateOptions_calls {σ V : Type} (se : SetOptioner σ V) (i : Nat) :
    ∀ (m : OptionMap V) (st : σ) (tr : List (Event V)),
      (propagateOptions se i m (st, tr)).2 = tr ++ m.map fun e => Event.setOption i e.1 e.2
  | [], st, tr => by simp [propagateOptions]
  | (oname, ovalue) :: rest, st, tr => by
    rw [propagateOptions, propagateOptions_calls se i rest]
    simp

/-- The setup loop appends the expected SetOption calls. -/
theorem collectNodeRenderers_calls {σ V : Type} (options : OptionMap V) :
    ∀ (vs : List (util.PrioritizedValue (Registered σ V))) (i : Nat)
      (chain : List (Option (NodeRenderer σ))) (st : σ) (tr : List (Event V)),
      (collectNodeRenderers options vs i chain (st, tr)).2.2 =
        tr ++ expectedSetOptions options vs i
  | [], _, _, _, _ => by simp [collectNodeRenderers, expectedSetOptions]
  | v :: vs, i, chain, st, tr => by
    rw [collectNodeRenderers]
    cases h : v.Value.asSetOptioner with
    | none =>
      simp only []
      rw [collectNodeRenderers_calls options vs]
      simp [expectedSetOptions, callsOn, h]
    | some se =>
      simp only []
      have hp := propagateOptions_calls se i options st tr
      rw [show propagateOptions se i options (st, tr) =
        ((propagateOptions se i options (st, tr)).1, (propagateOptions se i options (st, tr)).2)
        from rfl, collectNodeRenderers_calls options vs, hp]
      simp [expectedSetOptions, callsOn, h]

/-- The expected SetOption calls on the value at one position. -/
theorem expectedSetOptions_filter {σ V : Type} (options : OptionMap V) (j : Nat) :
    ∀ (vs : List (util.PrioritizedValue (Registered σ V))) (i : Nat),
      (expectedSetOptions options vs i).filter (fun e => decide (e.setOptionIndex = some j)) =
        if i ≤ j then callsOn options j vs[j - i]? else []
  | [], i => by
    simp [expectedSetOptions, callsOn]
  | v :: vs, i => by
    have ih := expectedSetOptions_filter options j vs (i + 1)
    have hhead : (callsOn options i (some v)).filter
        (fun e => decide (e.setOptionIndex = some j)) =
          if i = j then callsOn options i (some v) else [] := by
      cases h : v.Value.asSetOptioner with
      | none => simp [callsOn, h]
      | some se =>
        by_cases hij : i = j
        · simp [callsOn, h, hij, List.filter_map, Function.comp_def, Event.setOptionIndex]
        · simp [callsOn, h, hij, List.filter_map, Function.comp_def, Event.setOptionIndex]
    rw [expectedSetOptions, List.filter_append, hhead, ih]
    by_cases h1 : i = j
    · subst h1
      simp
    · by_cases h2 : i ≤ j
      · have h3 : i + 1 ≤ j := by omega
        have h4 : j - i = (j - (i + 1)) + 1 := by omega
        simp only [h1, h2, h3, if_true, if_false, List.nil_append]
        rw [h4, List.getElem?_cons_succ]
      · have h3 : ¬ i + 1 ≤ j := by omega
        simp [h1, h2, h3]

/-- An assignment keeps the names of a map distinct. -/
theorem OptionMap_set_nodup {V : Type} (k : OptionName) (v : V) :
    ∀ m : OptionMap V, (m.map Prod.fst).Nodup → ((m.set k v).map Prod.fst).Nodup ∧
      ∀ x, x ∈ (m.set k v).map Prod.fst → x = k ∨ x ∈ m.map Prod.fst
  | [], _ => by simp [OptionMap.set]
  | (k1, v1) :: rest, h => by
    have hn := List.nodup_cons.1 h
    have ih := OptionMap_set_nodup k v rest hn.2
    by_cases h1 : k1 = k
    · subst h1
      simp only [OptionMap.set, if_true]
      exact ⟨h, fun x hx => Or.inr hx⟩
    · simp only [OptionMap.set, h1, if_false, List.map_cons]
      constructor
      · apply List.nodup_cons.2
        refine ⟨?_, ih.1⟩
        intro hmem
        rcases ih.2 k1 hmem with h2 | h2
        · exact h1 h2
        · exact hn.1 h2
      · intro x hx
        rcases List.mem_cons.1 hx with hx | hx
        · exact Or.inr (by rw [hx]; exact List.mem_cons_self _ _)
        · rcases ih.2 x hx with h2 | h2
          · exact Or.inl h2
          · exact Or.inr (List.mem_cons_of_mem _ h2)

/-- Applying options keeps the names of the options map distinct. -/
theorem foldl_apply_nodup {σ V : Type} :
    ∀ (os : List (RendererOption σ V)) (c : Config σ V), (c.Options.map Prod.fst).Nodup →
      ((os.foldl (fun c opt => opt.apply c) c).Options.map Prod.fst).Nodup
  | [], _, h => h
  | o :: os, c, h => by
    rw [List.foldl_cons]
    apply foldl_apply_nodup os
    cases o with
    | withNodeRenderers value => exact h
    | withOption name value => exact (OptionMap_set_nodup name value c.Options h).1

/-- The loop over the chain only appends to the trace, and only Render calls. -/
theorem dispatch_appends {σ V : Type} (source : List Byte) (n : ast.Node) (entering : Bool) :
    ∀ (chain : List (Option (NodeRenderer σ))) (i : Nat) (s : ast.WalkStatus)
      (err : Option GoError) (st : σ) (tr : List (Event V)),
      ∃ ext, (renderer.dispatch source n entering chain i s err (st, tr)).2.2 = tr ++ ext ∧
        ∀ e ∈ ext, e.isSetOption = false
  | [], _, _, _, _, tr => ⟨[], by simp [renderer.dispatch]⟩
  | none :: _, _, _, _, _, tr => ⟨[], by simp [renderer.dispatch]⟩
  | some nr :: rest, i, _, _, st, tr => by
    rw [renderer.dispatch]
    split
    split
    · rename_i s1 err1 st1 _ _
      obtain ⟨ext, h1, h2⟩ := dispatch_appends source n entering rest (i + 1) s1 err1 st1
        (tr ++ [Event.render i n entering])
      refine ⟨Event.render i n entering :: ext, ?_, ?_⟩
      · rw [h1]; simp
      · intro e he
        rcases List.mem_cons.1 he with he | he
        · rw [he]; rfl
        · exact h2 e he
    · refine ⟨[Event.render i n entering], rfl, ?_⟩
      intro e he
      rw [List.mem_singleton.1 he]; rfl

/-- The walk Render starts only appends to the trace, and only Render calls. -/
theorem walk_appends {σ V : Type} (r : renderer σ V) (source : List Byte) (n : ast.Node)
    (st : σ) (tr : List (Event V)) :
    ∃ ext, (ast.Walk n (r.visitor source) (st, tr)).2.2 = tr ++ ext ∧
      ∀ e ∈ ext, e.isSetOption = false := by
  apply Walk_preserves (r.visitor source)
    (fun s => ∃ ext, s.2 = tr ++ ext ∧ ∀ e ∈ ext, e.isSetOption = false)
  · intro n1 e1 s hs
    obtain ⟨ext, h1, h2⟩ := hs
    obtain ⟨ext2, h3, h4⟩ := dispatch_appends source n1 e1 r.nodeRenderers 0
      ast.WalkStatus.WalkUnset none s.1 s.2
    refine ⟨ext ++ ext2, ?_, ?_⟩
    · show (renderer.dispatch source n1 e1 r.nodeRenderers 0 ast.WalkStatus.WalkUnset none
        (s.1, s.2)).2.2 = _
      rw [h3, h1, List.append_assoc]
    · intro e he
      rcases List.mem_append.1 he with he | he
      · exact h2 e he
      · exact h4 e he
  · exact ⟨[], by simp⟩

/-- The trace of a Render call is the trace of its setup step followed by
calls that are no SetOption calls. -/
theorem Render_trace_split {σ V : Type} (r : renderer σ V) (w : IOWriter σ) (source : List Byte)
    (n : ast.Node) (st : σ) (r1 : renderer σ V) (st1 : σ) (tr1 : List (Event V))
    (hinit : r.initOnce (st, []) = (.returned (), r1, (st1, tr1))) :
    ∃ rest, (r.Render w source n st).trace = tr1 ++ rest ∧
      ∀ e ∈ rest, e.isSetOption = false := by
  obtain ⟨ext, h1, h2⟩ := walk_appends r1 source n st1 tr1
  unfold renderer.Render
  rw [hinit]
  simp only
  split
  · rename_i heq
    rw [heq] at h1
    exact ⟨ext, h1, h2⟩
  · rename_i heq
    rw [heq] at h1
    exact ⟨ext, h1, h2⟩
  · rename_i heq
    rw [heq] at h1
    refine ⟨ext ++ [Event.flush], ?_, ?_⟩
    · simp only at h1
      rw [h1, List.append_assoc]
    · intro e he
      rcases List.mem_append.1 he with he | he
      · exact h2 e he
      · rw [List.mem_singleton.1 he]; rfl

/-- Claim C15. In the first Render call on a renderer built from options, the
trace starts with the SetOption calls of the setup and holds no other SetOption
call, so all of them precede every Render call on a node renderer. For every
position of the sorted registrations, the SetOption calls on the value at that
position are exactly one call per entry of the options map when the value is a
SetOptioner, and none when it is not; the names of the options map are
distinct, so every (name, value) pair is passed exactly once. -/
theorem C15_options_propagated_once {σ V : Type} (given added : List (RendererOption σ V))
    (w : IOWriter σ) (source : List Byte) (n : ast.Node) (st : σ) :
    (∃ rest,
      (((NewRenderer given).addOptions added).1.Render w source n st).trace =
        expectedSetOptions
          (((NewRenderer given).addOptions added).1.Render w source n st).r.options
          (util.PrioritizedSlice.Sort (registrations (given ++ added))) 0 ++ rest ∧
      ∀ e ∈ rest, e.isSetOption = false) ∧
    (∀ j : Nat,
      (((NewRenderer given).addOptions added).1.Render w source n st).trace.filter
          (fun e => decide (e.setOptionIndex = some j)) =
        callsOn (((NewRenderer given).addOptions added).1.Render w source n st).r.options j
          (util.PrioritizedSlice.Sort (registrations (given ++ added)))[j]?) ∧
    ((((NewRenderer given).addOptions added).1.Render w source n st).r.options.map
      Prod.fst).Nodup := by
  have hadd := addOptions_config added (NewRenderer given)
    (given.foldl (fun (c : Config σ V) (opt : RendererOption σ V) => opt.apply c) NewConfig) rfl
  rw [← List.foldl_append] at hadd
  have hparts := foldl_apply_parts (given ++ added) (NewConfig : Config σ V)
  have hnodup := foldl_apply_nodup (given ++ added) (NewConfig : Config σ V)
    (by simp [NewConfig])
  generalize hc : (given ++ added).foldl
    (fun (c : Config σ V) (opt : RendererOption σ V) => opt.apply c) NewConfig = c at *
  have hregs : c.NodeRenderers = registrations (given ++ added) := by
    rw [hparts.2]; simp [NewConfig]
  rw [hadd]
  simp only
  have hinit : ({ NewRenderer given with config := some c } : renderer σ V).initOnce (st, []) =
      (.returned (),
        { config := none, options := c.Options,
          nodeRenderers := (collectNodeRenderers c.Options
            (util.PrioritizedSlice.Sort c.NodeRenderers) 0 [] (st, [])).1,
          initDone := true },
        ((collectNodeRenderers c.Options
            (util.PrioritizedSlice.Sort c.NodeRenderers) 0 [] (st, [])).2.1,
          (collectNodeRenderers c.Options
            (util.PrioritizedSlice.Sort c.NodeRenderers) 0 [] (st, [])).2.2)) := by
    simp [renderer.initOnce, renderer.setup, NewRenderer]
  have hopt : (({ NewRenderer given with config := some c } : renderer σ V).Render w source n
      st).r.options = c.Options := by
    rw [Render_r, hinit]
  obtain ⟨rest, h1, h2⟩ := Render_trace_split _ w source n st _ _ _ hinit
  rw [collectNodeRenderers_calls, List.nil_append, hregs] at h1
  rw [hopt]
  refine ⟨⟨rest, h1, h2⟩, ?_, hnodup⟩
  intro j
  rw [h1, List.filter_append, expectedSetOptions_filter]
  have hrest : rest.filter (fun e => decide (e.setOptionIndex = some j)) = [] := by
    apply List.filter_eq_nil_iff.2
    intro e he
    have := h2 e he
    cases e <;> simp_all [Event.isSetOption, Event.setOptionIndex]
  rw [hrest]
  simp

/-! ## Theorems: the frame of Open -/

/-- Open without a node: the tree and the context are as before. -/
theorem Open_none (b : parser.setextHeadingParser) (t : ast.Tree)
    (parent : Option ast.NodeRef) (reader : text.Reader) (pc : parser.Context)
    (res : parser.OpenResult) (h : b.Open t parent reader pc = .returned res)
    (hv : res.node = none) : res.tree = t ∧ res.pc = pc := by
  unfold parser.setextHeadingParser.Open at h
  cases h1 : pc.LastOpenedBlock with
  | none => simp only [h1] at h; cases h; exact ⟨rfl, rfl⟩
  | some last =>
    simp only [h1] at h
    split_ifs at h with hn
    · cases h; exact ⟨rfl, rfl⟩
    · cases hm : parser.matchesSetextHeadingBar reader.PeekLine.1 with
      | panicked f => rw [hm] at h; cases h
      | returned m =>
        rw [hm] at h
        simp only [Outcome.bind_returned] at h
        by_cases hok : m.2 = true
        · rw [if_neg (not_not.2 hok)] at h
          cases h
          simp at hv
        · rw [if_pos hok] at h
          cases h
          exact ⟨rfl, rfl⟩

/-- Claim C17. For every call of Open that returns: every node that existed
before the call is as before and the last opened block of the context is as
before; when Open returns no node, the tree and the context (its store
included) are unchanged; when it returns a node, that node is the newly
allocated one, it holds exactly one line, the segment of the peeked line, and
the store differs from the old one only at the stash key, which holds the last
opened Paragraph. The reader is only peeked: Open yields no changed reader and
its result depends on the reader through PeekLine alone. Open returns whenever
the peeked line is not empty. -/
theorem C17_open_frame (b : parser.setextHeadingParser) (t : ast.Tree)
    (parent : Option ast.NodeRef) (reader : text.Reader) (pc : parser.Context) :
    (∀ res, b.Open t parent reader pc = .returned res →
      (∀ v, v ≠ t.fresh → res.tree.node v = t.node v) ∧
      res.pc.LastOpenedBlock = pc.LastOpenedBlock ∧
      (res.node = none → res.tree = t ∧ res.pc = pc) ∧
      (∀ v, res.node = some v →
        v = t.fresh ∧
        (res.tree.node v).lines = [reader.PeekLine.2] ∧
        ∃ last, pc.LastOpenedBlock = some last ∧ (t.node last).kind = .Paragraph ∧
          res.pc.store = Function.update pc.store parser.temporaryParagraphKey (.node last) ∧
          ∀ key, key ≠ parser.temporaryParagraphKey → res.pc.Get key = pc.Get key)) ∧
    (∀ reader2 : text.Reader, reader2.PeekLine = reader.PeekLine →
      b.Open t parent reader2 pc = b.Open t parent reader pc) ∧
    (reader.PeekLine.1 ≠ [] → ∃ res, b.Open t parent reader pc = .returned res) := by
  refine ⟨?_, ?_, ?_⟩
  · intro res h
    cases hnode : res.node with
    | none =>
      obtain ⟨ht, hp⟩ := Open_none b t parent reader pc res h hnode
      refine ⟨fun v _ => by rw [ht], by rw [hp], fun _ => ⟨ht, hp⟩, fun v hv => by cases hv⟩
    | some v0 =>
      obtain ⟨last, c, h1, h2, h3, h4⟩ := Open_node b t parent reader pc res v0 h hnode
      rw [Open_accepts b t parent reader pc last c h1 h2 h3 h4] at h
      cases h
      simp only [Option.some.injEq] at hnode
      subst hnode
      refine ⟨?_, rfl, fun hv => (by cases hv), ?_⟩
      · intro v hv
        simp [ast.Tree.AppendLine, Tree_modify_node, ast.Tree.NewHeading, ast.Tree.alloc, hv,
          Function.update]
      · intro v hv
        simp only [Option.some.injEq] at hv
        subst hv
        refine ⟨rfl, (Open_heading t _ reader.PeekLine.2).2, last, h1, h2, rfl, ?_⟩
        intro key hkey
        simp [parser.Context.Get, parser.Context.Set, Function.update, hkey]
  · intro reader2 h2
    unfold parser.setextHeadingParser.Open
    rw [h2]
  · intro hne
    unfold parser.setextHeadingParser.Open
    cases pc.LastOpenedBlock with
    | none => exact ⟨_, rfl⟩
    | some last =>
      simp only
      by_cases hn : ¬ (t.node last).kind = .Paragraph ∨ (t.node last).parent ≠ parent
      · rw [if_pos hn]
        exact ⟨_, rfl⟩
      · rw [if_neg hn]
        rcases matchesSetextHeadingBar_cases reader.PeekLine.1 hne with h | h | h <;>
          rw [h] <;> simp

/-- The witness of claim C17: on the title input Open returns node 2; the
document and the paragraph are as before, the heading holds the segment of the
bar line, and the stash key holds the paragraph. -/
theorem C17_open_frame_witness :
    ∃ res, plainParser.Open titleTree (some 0) titleReader titleContext = .returned res ∧
      res.node = some 2 ∧ res.tree.node 0 = titleTree.node 0 ∧
      res.tree.node 1 = titleTree.node 1 ∧
      (res.tree.node 2).lines = [{ Start := 6, Stop := 10 }] ∧
      res.pc.Get parser.temporaryParagraphKey = .node 1 :=
  ⟨_, rfl, rfl,
    ((C17_open_frame plainParser titleTree (some 0) titleReader titleContext).1 _ rfl).1 0
      (by decide),
    ((C17_open_frame plainParser titleTree (some 0) titleReader titleContext).1 _ rfl).1 1
      (by decide),
    rfl, rfl⟩

/-! ## Theorems: the attribute step of Close -/

/-- A slice that lies within the list is its bytes. -/
theorem goSlice_inRange (b : List Byte) (lo hi : Int)
    (h : 0 ≤ lo ∧ lo ≤ hi ∧ hi ≤ (b.length : Int)) :
    goSlice b lo hi = .returned (bytesOf b lo hi) := by
  unfold goSlice bytesOf
  rw [if_pos h]

/-- A slice that returns lies within the list. -/
theorem goSlice_returned (b : List Byte) (lo hi : Int) (x : List Byte)
    (h : goSlice b lo hi = .returned x) :
    (0 ≤ lo ∧ lo ≤ hi ∧ hi ≤ (b.length : Int)) ∧ x = bytesOf b lo hi ∧
      (x.length : Int) = hi - lo := by
  unfold goSlice at h
  by_cases hc : 0 ≤ lo ∧ lo ≤ hi ∧ hi ≤ (b.length : Int)
  · rw [if_pos hc] at h
    cases h
    refine ⟨hc, rfl, ?_⟩
    simp only [List.length_drop, List.length_take]
    omega
  · rw [if_neg hc] at h
    cases h

/-- The read of the last element of a list that ends with it. -/
theorem goIndex_append_last {α : Type} (init : List α) (x : α) :
    goIndex (init ++ [x]) (((init ++ [x]).length : Int) - 1) = .returned x := by
  unfold goIndex
  have h0 : (0 : Int) ≤ ((init ++ [x]).length : Int) - 1 := by simp
  have h1 : (((init ++ [x]).length : Int) - 1).toNat = init.length := by simp
  rw [if_pos h0, h1]
  simp

/-- The lookup after an assignment of an attribute. -/
theorem getAttr_setAttr (name k v : List Byte) :
    ∀ m : List (List Byte × List Byte),
      ast.getAttr (ast.setAttr m k v) name = if k = name then some v else ast.getAttr m name
  | [] => by simp [ast.setAttr, ast.getAttr]
  | (k1, v1) :: rest => by
    have ih := getAttr_setAttr name k v rest
    by_cases h1 : k1 = k
    · subst h1
      by_cases h2 : k1 = name <;> simp [ast.setAttr, ast.getAttr, h2]
    · by_cases h2 : k1 = name
      · subst h2
        have h3 : ¬ k = k1 := fun h => h1 h.symm
        simp [ast.setAttr, ast.getAttr, h1, h3]
      · simp [ast.setAttr, ast.getAttr, h1, h2, ih]

/-- In the attribute mapping after the quadruples, the last quadruple of a name
decides its value, and a name without a quadruple is as before. -/
theorem getAttr_attributesAfter (line name : List Byte) :
    ∀ (quads : List (Int × Int × Int × Int)) (attrs : List (List Byte × List Byte)),
      ast.getAttr (attributesAfter line attrs quads) name =
        match lastNamed line name quads with
        | some v => some v
        | none => ast.getAttr attrs name
  | [], attrs => by simp [attributesAfter, lastNamed]
  | (k0, k1, v0, v1) :: rest, attrs => by
    rw [attributesAfter, getAttr_attributesAfter line name rest]
    cases h : lastNamed line name rest with
    | some v => simp [lastNamed, h]
    | none =>
      by_cases hn : bytesOf line k0 k1 = name <;>
        simp [lastNamed, h, getAttr_setAttr, hn]

/-- The loop over the quadruples, all within the line: it returns, the
attributes of the node are as the quadruples set them in list order, and
nothing else changes. -/
theorem setAttributes_spec (node : ast.NodeRef) (line : List Byte) :
    ∀ (quads : List (Int × Int × Int × Int)) (t : ast.Tree),
      (∀ q ∈ quads, quadInRange line q) →
      ∃ t1, parser.setextHeadingParser.setAttributes t node line quads = .returned t1 ∧
        t1.node node = { t.node node with
          attributes := attributesAfter line (t.node node).attributes quads } ∧
        ∀ v, v ≠ node → t1.node v = t.node v
  | [], t, _ => ⟨t, rfl, rfl, fun _ _ => rfl⟩
  | (k0, k1, v0, v1) :: rest, t, h => by
    have hq := h (k0, k1, v0, v1) (List.mem_cons_self _ _)
    obtain ⟨t1, h1, h2, h3⟩ := setAttributes_spec node line rest
      (t.SetAttribute node (bytesOf line k0 k1) (bytesOf line v0 v1))
      (fun q hq => h q (List.mem_cons_of_mem _ hq))
    refine ⟨t1, ?_, ?_, ?_⟩
    · rw [parser.setextHeadingParser.setAttributes, goSlice_inRange line k0 k1 hq.1,
        goSlice_inRange line v0 v1 hq.2]
      exact h1
    · rw [h2]
      simp [ast.Tree.SetAttribute, Tree_modify_node, attributesAfter]
    · intro v hv
      rw [h3 v hv]
      simp [ast.Tree.SetAttribute, Tree_modify_node, hv]

/-- The attribute step when the tokenizer finds an attribute block: it returns,
the attributes are set in list order, the last line keeps its Start and gets
the Stop `Start + k0 - 1` of the first quadruple, and nothing else changes. -/
theorem closeAttribute_found (ext : parser.Collaborators) (t : ast.Tree) (node : ast.NodeRef)
    (reader : text.Reader) (init : List text.Segment) (lastLine : text.Segment)
    (line : List Byte) (q0 : Int × Int × Int × Int) (qs : List (Int × Int × Int × Int))
    (hlines : (t.node node).lines = init ++ [lastLine])
    (hval : lastLine.Value reader.Source = .returned line)
    (hfind : ext.FindAttributeIndiciesReverse line true = some (q0 :: qs))
    (hq : ∀ q ∈ q0 :: qs, quadInRange line q) (hk : 1 ≤ q0.1) :
    ∃ t2, parser.setextHeadingParser.closeAttribute ext t node reader = .returned t2 ∧
      (t2.node node).attributes =
        attributesAfter line (t.node node).attributes (q0 :: qs) ∧
      (t2.node node).lines =
        init ++ [{ Start := lastLine.Start, Stop := lastLine.Start + q0.1 - 1 }] ∧
      (t2.node node).kind = (t.node node).kind ∧
      ∀ v, v ≠ node → t2.node v = t.node v := by
  obtain ⟨t1, h1, h2, h3⟩ := setAttributes_spec node line (q0 :: qs) t hq
  obtain ⟨hr, _, hlen⟩ := goSlice_returned reader.Source lastLine.Start lastLine.Stop line hval
  have hq0 := hq q0 (List.mem_cons_self _ _)
  have hidx := goIndex_append_last init lastLine
  have htrim : text.Segment.TrimRightSpace
      { Start := lastLine.Start, Stop := lastLine.Start + q0.1 - 1 } reader.Source =
        .returned { Start := lastLine.Start,
                    Stop := lastLine.Start + q0.1 - 1 -
                      (util.TrimRightSpaceLength
                        (bytesOf reader.Source lastLine.Start (lastLine.Start + q0.1 - 1)) : Int) } := by
    unfold text.Segment.TrimRightSpace text.Segment.Value
    rw [goSlice_inRange reader.Source lastLine.Start (lastLine.Start + q0.1 - 1) (by
      have := hq0.1
      omega)]
    rfl
  have hset : t1.SetLineAt node (((t.node node).lines.length : Int) - 1)
      { Start := lastLine.Start, Stop := lastLine.Start + q0.1 - 1 } =
        .returned (t1.modify node fun b => { b with lines := (b.lines.set
          (((t.node node).lines.length : Int) - 1).toNat
          { Start := lastLine.Start, Stop := lastLine.Start + q0.1 - 1 }) }) := by
    unfold ast.Tree.SetLineAt
    rw [if_pos]
    rw [h2, hlines]
    simp
  refine ⟨t1.modify node fun b => { b with lines := (b.lines.set
          (((t.node node).lines.length : Int) - 1).toNat
          { Start := lastLine.Start, Stop := lastLine.Start + q0.1 - 1 }) }, ?_, ?_, ?_, ?_, ?_⟩
  · have hi0 : goIndex (q0 :: qs) 0 = .returned q0 := by simp [goIndex]
    rw [← hlines] at hidx
    unfold parser.setextHeadingParser.closeAttribute
    simp only [hidx, Outcome.bind_returned, hval, hfind, h1, hi0, htrim]
    exact hset
  · simp [Tree_modify_node, h2]
  · simp [Tree_modify_node, h2, hlines]
  · simp [Tree_modify_node, h2]
  · intro v hv
    simp [Tree_modify_node, hv, h3 v hv]

/-- The attribute step when the tokenizer finds no attribute block: the tree is
as before. -/
theorem closeAttribute_none (ext : parser.Collaborators) (t : ast.Tree) (node : ast.NodeRef)
    (reader : text.Reader) (init : List text.Segment) (lastLine : text.Segment)
    (line : List Byte) (hlines : (t.node node).lines = init ++ [lastLine])
    (hval : lastLine.Value reader.Source = .returned line)
    (hfind : ext.FindAttributeIndiciesReverse line true = none) :
    parser.setextHeadingParser.closeAttribute ext t node reader = .returned t := by
  have hidx := goIndex_append_last init lastLine
  rw [← hlines] at hidx
  unfold parser.setextHeadingParser.closeAttribute
  simp only [hidx, Outcome.bind_returned, hval, hfind]

/-- Close is the steps before the auto-ID step followed by the auto-ID step. -/
theorem Close_split (b : parser.setextHeadingParser) (ext : parser.Collaborators) (t : ast.Tree)
    (node : ast.NodeRef) (reader : text.Reader) (pc : parser.Context) :
    b.Close ext t node reader pc =
      (b.closeBeforeAutoID ext t node reader pc).bind fun tp =>
        if b.AutoHeadingID then
          .returned (parser.setextHeadingParser.closeAutoID ext tp.1 node reader tp.2)
        else .returned (tp.1, tp.2) := by
  unfold parser.setextHeadingParser.Close parser.setextHeadingParser.closeBeforeAutoID
  cases parser.setextHeadingParser.closeBlock t node reader pc with
  | panicked f => rfl
  | returned tp =>
    simp only [Outcome.bind_returned]
    cases (if b.Attribute = true then
        parser.setextHeadingParser.closeAttribute ext tp.1 node reader
      else Outcome.returned tp.1) with
    | panicked f => rfl
    | returned t1 => rfl

/-- Claim C18. With attribute parsing enabled, for the last line of the heading
after the block step and the list of index quadruples the tokenizer returns for
it (all within the line, the first one behind a brace): the attribute step
returns, and the attributes of the heading are those obtained by setting, for
each quadruple in list order, the attribute named `line[k0:k1]` to the value
`line[v0:v1]`, so that for every name the last quadruple of that name decides.
When the tokenizer returns no list, the tree (attributes and lines of the
heading included) is left as the block step made it. -/
theorem C18_attributes_applied (b : parser.setextHeadingParser) (ext : parser.Collaborators)
    (t : ast.Tree) (node : ast.NodeRef) (reader : text.Reader) (pc : parser.Context)
    (t0 : ast.Tree) (pc0 : parser.Context) (init : List text.Segment) (lastLine : text.Segment)
    (line : List Byte) (hA : b.Attribute = true)
    (hblock : parser.setextHeadingParser.closeBlock t node reader pc = .returned (t0, pc0))
    (hlines : (t0.node node).lines = init ++ [lastLine])
    (hval : lastLine.Value reader.Source = .returned line) :
    (∀ q0 qs, ext.FindAttributeIndiciesReverse line true = some (q0 :: qs) →
      (∀ q ∈ q0 :: qs, quadInRange line q) → 1 ≤ q0.1 →
      ∃ t2, b.closeBeforeAutoID ext t node reader pc = .returned (t2, pc0) ∧
        (b.AutoHeadingID = false → b.Close ext t node reader pc = .returned (t2, pc0)) ∧
        (t2.node node).attributes =
          attributesAfter line (t0.node node).attributes (q0 :: qs) ∧
        (∀ name, ast.getAttr (t2.node node).attributes name =
          match lastNamed line name (q0 :: qs) with
          | some v => some v
          | none => ast.getAttr (t0.node node).attributes name) ∧
        ∀ v, v ≠ node → t2.node v = t0.node v) ∧
    (ext.FindAttributeIndiciesReverse line true = none →
      b.closeBeforeAutoID ext t node reader pc = .returned (t0, pc0) ∧
      (b.AutoHeadingID = false → b.Close ext t node reader pc = .returned (t0, pc0))) := by
  constructor
  · intro q0 qs hfind hq hk
    obtain ⟨t2, h1, h2, _, _, h5⟩ :=
      closeAttribute_found ext t0 node reader init lastLine line q0 qs hlines hval hfind hq hk
    have hbefore : b.closeBeforeAutoID ext t node reader pc = .returned (t2, pc0) := by
      unfold parser.setextHeadingParser.closeBeforeAutoID
      simp only [hblock, Outcome.bind_returned, hA, if_true, h1]
    refine ⟨t2, hbefore, ?_, h2, ?_, h5⟩
    · intro hI
      rw [Close_split, hbefore]
      simp [hI]
    · intro name
      rw [h2, getAttr_attributesAfter]
  · intro hfind
    have h1 := closeAttribute_none ext t0 node reader init lastLine line hlines hval hfind
    have hbefore : b.closeBeforeAutoID ext t node reader pc = .returned (t0, pc0) := by
      unfold parser.setextHeadingParser.closeBeforeAutoID
      simp only [hblock, Outcome.bind_returned, hA, if_true, h1]
    refine ⟨hbefore, ?_⟩
    intro hI
    rw [Close_split, hbefore]
    simp [hI]

/-- The witness of claim C18: the last line `Title {#custom-id}` with a
tokenizer that reports the name range where the line reads `id` and the value
range where it reads `custom-id`; after the attribute step the heading has the
attribute `id` with the value `custom-id`. -/
theorem C18_attributes_applied_witness :
    ∃ t2, attributeParser.Close idCollaborators customAttachedTree 2 customReader
        titleOpenedContext = .returned (t2, titleOpenedContext.Set parser.temporaryParagraphKey .nil) ∧
      ast.getAttr (t2.node 2).attributes parser.idName =
        some [99, 117, 115, 116, 111, 109, 45, 105, 100] := by
  obtain ⟨t2, _, h2, _, h4, _⟩ :=
    (C18_attributes_applied attributeParser idCollaborators customAttachedTree 2 customReader
      titleOpenedContext _ _ [] { Start := 0, Stop := 18 }
      [84, 105, 116, 108, 101, 32, 123, 35, 99, 117, 115, 116, 111, 109, 45, 105, 100, 125]
      rfl rfl rfl (by decide)).1 (15, 17, 8, 17) [] rfl
      (by
        intro q hq
        rw [List.mem_singleton.1 hq]
        unfold quadInRange
        decide)
      (by decide)
  exact ⟨t2, h2 rfl, h4 parser.idName⟩

/-! ## Theorems: the block step of Close on a stashed paragraph without lines -/

/-- An in-place change allocates nothing. -/
theorem Tree_modify_fresh (t : ast.Tree) (v : ast.NodeRef) (f : ast.Block → ast.Block) :
    (t.modify v f).fresh = t.fresh := rfl

/-- Clearing the lines of a node does not change who follows it. -/
theorem NextSibling_SetLines (t : ast.Tree) (node : ast.NodeRef) (ls : List text.Segment) :
    (t.SetLines node ls).NextSibling node = t.NextSibling node := by
  unfold ast.Tree.NextSibling ast.Tree.SetLines
  simp only [Tree_modify_node, if_true]
  cases (t.node node).parent with
  | none => rfl
  | some p =>
    simp only
    by_cases h : p = node
    · subst h; simp
    · simp [h]

/-- The block step when the stashed paragraph has no lines and a paragraph
follows the heading: the trimmed bar segment becomes the first line of that
paragraph and the heading is removed. -/
theorem closeBlock_empty_next (t : ast.Tree) (node : ast.NodeRef) (reader : text.Reader)
    (pc : parser.Context) (tmp p nx : ast.NodeRef) (seg seg1 : text.Segment)
    (rest : List text.Segment) (level : Int)
    (hk : (t.node node).kind = .Heading level) (hl : (t.node node).lines = seg :: rest)
    (hst : pc.Get parser.temporaryParagraphKey = .node tmp)
    (hpk : (t.node tmp).kind = .Paragraph) (hpl : (t.node tmp).lines = [])
    (hp : (t.node node).parent = some p)
    (htrim : seg.TrimLeftSpace reader.Source = .returned seg1)
    (hnext : t.NextSibling node = some nx) (hnk : (t.node nx).kind = .Paragraph) :
    parser.setextHeadingParser.closeBlock t node reader pc = .returned
      (((t.SetLines node []).UnshiftLine nx seg1).RemoveChild p node,
        pc.Set parser.temporaryParagraphKey .nil) := by
  have hne : tmp ≠ node := by
    intro h
    rw [h, hk] at hpk
    cases hpk
  have hnx : nx ≠ node := by
    intro h
    rw [h, hk] at hnk
    cases hnk
  have hseg : goIndex (seg :: rest) 0 = .returned seg := by simp [goIndex]
  unfold parser.setextHeadingParser.closeBlock
  simp only [hk, hl, hst, hseg, Outcome.bind_returned, NextSibling_SetLines, hnext, htrim]
  simp [ast.Tree.SetLines, ast.Tree.UnshiftLine, Tree_modify_node, hne, hnx, Ne.symm hnx, hpk,
    hpl, hnk, hp, parser.setextHeadingParser.barToParagraph]

/-- The block step when the stashed paragraph has no lines and no paragraph
follows the heading: a new paragraph that holds the trimmed bar segment is
inserted after the heading and the heading is removed. -/
theorem closeBlock_empty_new (t : ast.Tree) (node : ast.NodeRef) (reader : text.Reader)
    (pc : parser.Context) (tmp p : ast.NodeRef) (seg seg1 : text.Segment)
    (rest : List text.Segment) (level : Int)
    (hk : (t.node node).kind = .Heading level) (hl : (t.node node).lines = seg :: rest)
    (hst : pc.Get parser.temporaryParagraphKey = .node tmp)
    (hpk : (t.node tmp).kind = .Paragraph) (hpl : (t.node tmp).lines = [])
    (hp : (t.node node).parent = some p)
    (htrim : seg.TrimLeftSpace reader.Source = .returned seg1)
    (hnext : t.NextSibling node = none ∨
      ∃ nx, t.NextSibling node = some nx ∧ (t.node nx).kind ≠ .Paragraph)
    (hfn : node ≠ t.fresh) :
    parser.setextHeadingParser.closeBlock t node reader pc = .returned
      (((((t.SetLines node []).NewParagraph).1.AppendLine t.fresh seg1).InsertAfter p node
          t.fresh).RemoveChild p node,
        pc.Set parser.temporaryParagraphKey .nil) := by
  have hne : tmp ≠ node := by
    intro h
    rw [h, hk] at hpk
    cases hpk
  have hseg : goIndex (seg :: rest) 0 = .returned seg := by simp [goIndex]
  have hins : parser.setextHeadingParser.insertParagraph (t.SetLines node []) node seg1 =
      .returned ((((t.SetLines node []).NewParagraph).1.AppendLine t.fresh seg1).InsertAfter p
        node t.fresh) := by
    simp [parser.setextHeadingParser.insertParagraph, ast.Tree.NewParagraph, ast.Tree.alloc,
      ast.Tree.AppendLine, ast.Tree.SetLines, Tree_modify_node, Tree_modify_fresh,
      Function.update, hfn, hp]
  have hbar : parser.setextHeadingParser.barToParagraph (t.SetLines node []) node
      (t.NextSibling node) seg1 =
        .returned ((((t.SetLines node []).NewParagraph).1.AppendLine t.fresh seg1).InsertAfter p
          node t.fresh) := by
    rcases hnext with h | ⟨nx, h, hkind⟩
    · rw [h]
      exact hins
    · rw [h]
      have hnx : nx ≠ node ∨ nx = node := by
        by_cases e : nx = node
        · exact Or.inr e
        · exact Or.inl e
      have hk2 : ¬ ((t.SetLines node []).node nx).kind = ast.NodeKind.Paragraph := by
        rcases hnx with e | e
        · simpa [ast.Tree.SetLines, Tree_modify_node, e] using hkind
        · subst e
          simp [ast.Tree.SetLines, Tree_modify_node, hk]
      simp only [parser.setextHeadingParser.barToParagraph, hk2, not_false_eq_true, if_true]
      exact hins
  have hpar : ((((((t.SetLines node []).NewParagraph).1.AppendLine t.fresh seg1).InsertAfter p
      node t.fresh).node node).parent) = some p := by
    by_cases e : node = p
    · subst e
      simp [ast.Tree.InsertAfter, ast.Tree.NewParagraph, ast.Tree.alloc, ast.Tree.AppendLine,
        ast.Tree.SetLines, Tree_modify_node, Tree_modify_fresh, Function.update, hfn, hp]
    · simp [ast.Tree.InsertAfter, ast.Tree.NewParagraph, ast.Tree.alloc, ast.Tree.AppendLine,
        ast.Tree.SetLines, Tree_modify_node, Tree_modify_fresh, Function.update, hfn, hp, e]
  unfold parser.setextHeadingParser.closeBlock
  simp only [hk, hl, hst, hseg, Outcome.bind_returned, NextSibling_SetLines, htrim]
  have hpk2 : ((t.SetLines node []).node tmp).kind = ast.NodeKind.Paragraph := by
    simp [ast.Tree.SetLines, Tree_modify_node, hne, hpk]
  have hpl2 : ((t.SetLines node []).node tmp).lines.length = 0 := by
    simp [ast.Tree.SetLines, Tree_modify_node, hne, hpl]
  simp only [hpk2, hpl2, if_true, hbar, Outcome.bind_returned, hpar]

/-- The insertion after a node that occurs in a list of siblings. -/
theorem insertAfterIn_split (v x : ast.NodeRef) (post : List ast.NodeRef) :
    ∀ pre : List ast.NodeRef, v ∉ pre →
      ast.insertAfterIn v x (pre ++ v :: post) = pre ++ v :: x :: post
  | [], _ => by simp [ast.insertAfterIn]
  | a :: pre, h => by
    have ha : a ≠ v := fun e => h (by rw [e]; exact List.mem_cons_self _ _)
    have hpre : v ∉ pre := fun e => h (List.mem_cons_of_mem _ e)
    simp [ast.insertAfterIn, ha, insertAfterIn_split v x post pre hpre]

/-- A new sibling inserted after a node takes the place of the node once the
node is filtered out. -/
theorem filter_insertAfterIn (v x : ast.NodeRef) (pre post : List ast.NodeRef) (hpre : v ∉ pre)
    (hpost : v ∉ post) (hx : x ≠ v) :
    (ast.insertAfterIn v x (pre ++ v :: post)).filter (fun c => decide (c ≠ v)) =
      pre ++ x :: post := by
  rw [insertAfterIn_split v x post pre hpre]
  have h1 : pre.filter (fun c => decide (c ≠ v)) = pre :=
    List.filter_eq_self.2 (fun a ha => by
      have : a ≠ v := fun e => hpre (e ▸ ha)
      simp [this])
  have h2 : post.filter (fun c => decide (c ≠ v)) = post :=
    List.filter_eq_self.2 (fun a ha => by
      have : a ≠ v := fun e => hpost (e ▸ ha)
      simp [this])
  rw [List.filter_append, List.filter_cons, List.filter_cons, h1, h2]
  simp [hx]

/-- The tree after the block step when a paragraph follows the heading. -/
theorem empty_next_tree (t : ast.Tree) (node p nx : ast.NodeRef) (seg1 : text.Segment)
    (hp : (t.node node).parent = some p) (hnx : nx ≠ node) :
    ((((t.SetLines node []).UnshiftLine nx seg1).RemoveChild p node).node nx).lines =
        seg1 :: (t.node nx).lines ∧
      ((((t.SetLines node []).UnshiftLine nx seg1).RemoveChild p node).node nx).kind =
        (t.node nx).kind ∧
      ((((t.SetLines node []).UnshiftLine nx seg1).RemoveChild p node).node p).children =
        (t.node p).children.filter (fun c => decide (c ≠ node)) ∧
      ((((t.SetLines node []).UnshiftLine nx seg1).RemoveChild p node).node node).parent =
        none ∧
      ((((t.SetLines node []).UnshiftLine nx seg1).RemoveChild p node).node node).lines = [] := by
  have hxn : node ≠ nx := Ne.symm hnx
  refine ⟨?_, ?_, ?_, ?_, ?_⟩ <;>
    by_cases h1 : p = node <;> by_cases h2 : p = nx <;>
      simp [ast.Tree.RemoveChild, ast.Tree.SetLines, ast.Tree.UnshiftLine, Tree_modify_node, hp,
        hnx, hxn, h1, h2, @eq_comm _ node p, @eq_comm _ nx p]

/-- The tree after the block step when a new paragraph is created. -/
theorem empty_new_tree (t : ast.Tree) (node p : ast.NodeRef) (seg1 : text.Segment)
    (hp : (t.node node).parent = some p) (hfn : node ≠ t.fresh) (hpf : p ≠ t.fresh) :
    (((((((t.SetLines node []).NewParagraph).1.AppendLine t.fresh seg1).InsertAfter p node
        t.fresh).RemoveChild p node).node t.fresh) =
          { ast.newBlock .Paragraph with lines := [seg1], parent := some p }) ∧
      (((((((t.SetLines node []).NewParagraph).1.AppendLine t.fresh seg1).InsertAfter p node
        t.fresh).RemoveChild p node).node p).children) =
          (ast.insertAfterIn node t.fresh (t.node p).children).filter
            (fun c => decide (c ≠ node)) ∧
      (((((((t.SetLines node []).NewParagraph).1.AppendLine t.fresh seg1).InsertAfter p node
        t.fresh).RemoveChild p node).node node).parent) = none := by
  have hnf : t.fresh ≠ node := Ne.symm hfn
  have hfp : t.fresh ≠ p := Ne.symm hpf
  refine ⟨?_, ?_, ?_⟩ <;>
    by_cases h1 : p = node <;>
      simp [ast.Tree.RemoveChild, ast.Tree.InsertAfter, ast.Tree.NewParagraph, ast.Tree.alloc,
        ast.Tree.AppendLine, ast.Tree.SetLines, ast.Tree.modify, ast.newBlock, Function.update,
        hp, hfn, hpf, hnf, hfp, h1, @eq_comm _ node p]

/-- Claim C11. Empty-paragraph close: for a heading as Open leaves it (its
first line is the bar segment, the context stashes a Paragraph) whose stashed
Paragraph has zero lines, whatever the line count of the heading, the block
step of Close returns, and so does Close when neither attribute parsing nor
auto-ID is enabled; afterwards the heading is no child of its former parent
and has no parent, the stash is cleared, and the bar segment with its leading
whitespace trimmed is a paragraph line. When the next sibling of the heading
is a Paragraph, the segment is the first line of that Paragraph and its other
lines follow unchanged; otherwise it is the only line of a new Paragraph, a
child of the former parent, that stands where the heading stood among the
siblings. -/
theorem C11_empty_paragraph_close (b : parser.setextHeadingParser) (ext : parser.Collaborators)
    (t : ast.Tree) (node : ast.NodeRef) (reader : text.Reader) (pc : parser.Context)
    (tmp p : ast.NodeRef) (seg seg1 : text.Segment) (rest : List text.Segment) (level : Int)
    (hk : (t.node node).kind = .Heading level) (hl : (t.node node).lines = seg :: rest)
    (hst : pc.Get parser.temporaryParagraphKey = .node tmp)
    (hpk : (t.node tmp).kind = .Paragraph) (hpl : (t.node tmp).lines = [])
    (hp : (t.node node).parent = some p)
    (htrim : seg.TrimLeftSpace reader.Source = .returned seg1) :
    (∀ nx, t.NextSibling node = some nx → (t.node nx).kind = .Paragraph →
      ∃ t1 pc1, parser.setextHeadingParser.closeBlock t node reader pc = .returned (t1, pc1) ∧
        (b.Attribute = false → b.AutoHeadingID = false →
          b.Close ext t node reader pc = .returned (t1, pc1)) ∧
        node ∉ (t1.node p).children ∧
        (t1.node p).children = (t.node p).children.filter (fun c => c ≠ node) ∧
        (t1.node node).parent = none ∧
        (t1.node nx).kind = .Paragraph ∧
        (t1.node nx).lines = seg1 :: (t.node nx).lines ∧
        pc1.Get parser.temporaryParagraphKey = .nil) ∧
    ((t.NextSibling node = none ∨
        ∃ nx, t.NextSibling node = some nx ∧ (t.node nx).kind ≠ .Paragraph) →
      node ≠ t.fresh → p ≠ t.fresh →
      ∃ t1 pc1, parser.setextHeadingParser.closeBlock t node reader pc = .returned (t1, pc1) ∧
        (b.Attribute = false → b.AutoHeadingID = false →
          b.Close ext t node reader pc = .returned (t1, pc1)) ∧
        node ∉ (t1.node p).children ∧
        (t1.node node).parent = none ∧
        (t1.node t.fresh).kind = .Paragraph ∧
        (t1.node t.fresh).lines = [seg1] ∧
        (t1.node t.fresh).parent = some p ∧
        (∀ pre post, (t.node p).children = pre ++ node :: post → node ∉ pre → node ∉ post →
          (t1.node p).children = pre ++ t.fresh :: post) ∧
        pc1.Get parser.temporaryParagraphKey = .nil) := by
  have hget : (pc.Set parser.temporaryParagraphKey .nil).Get parser.temporaryParagraphKey =
      .nil := by
    simp [parser.Context.Get, parser.Context.Set]
  constructor
  · intro nx hnext hnk
    have hnx : nx ≠ node := by
      intro h
      rw [h, hk] at hnk
      cases hnk
    have hclose := closeBlock_empty_next t node reader pc tmp p nx seg seg1 rest level hk hl hst
      hpk hpl hp htrim hnext hnk
    obtain ⟨h1, h2, h3, h4, _⟩ := empty_next_tree t node p nx seg1 hp hnx
    refine ⟨((t.SetLines node []).UnshiftLine nx seg1).RemoveChild p node,
      pc.Set parser.temporaryParagraphKey .nil, hclose, ?_, ?_, h3, h4, ?_, h1, hget⟩
    · intro hA hI
      unfold parser.setextHeadingParser.Close
      rw [hclose]
      simp [hA, hI]
    · rw [h3]
      simp
    · rw [h2]
      exact hnk
  · intro hnext hfn hpf
    have hclose := closeBlock_empty_new t node reader pc tmp p seg seg1 rest level hk hl hst
      hpk hpl hp htrim hnext hfn
    obtain ⟨h1, h2, h3⟩ := empty_new_tree t node p seg1 hp hfn hpf
    refine ⟨((((t.SetLines node []).NewParagraph).1.AppendLine t.fresh seg1).InsertAfter p node
        t.fresh).RemoveChild p node,
      pc.Set parser.temporaryParagraphKey .nil, hclose, ?_, ?_, h3, ?_, ?_, ?_, ?_, hget⟩
    · intro hA hI
      unfold parser.setextHeadingParser.Close
      rw [hclose]
      simp [hA, hI]
    · rw [h2]
      simp
    · rw [h1]
      rfl
    · rw [h1]
    · rw [h1]
    · intro pre post hc hpre hpost
      rw [h2, hc]
      exact filter_insertAfterIn node t.fresh pre post hpre hpost (Ne.symm hfn)

/-- The claim C11 on the input `"\n---\n"`: the paragraph before the bar has
no lines, Open returns the level 2 heading 2 whose single line is the bar
segment, the heading has no next sibling, and after Close the document holds
the stashed paragraph 1 and the new paragraph 3, whose single line is the bar
line `---` with its line end; the heading is detached. -/
theorem C11_empty_paragraph_close_witness :
    plainParser.Open emptyParagraphTree (some 0) ruleReader titleContext = .returned
        { node := some 2, state := .NoChildren,
          tree := (emptyParagraphTree.NewHeading 2).1.AppendLine 2 { Start := 1, Stop := 5 },
          pc := titleOpenedContext } ∧
      (ruleAttachedTree.node 0).children = [1, 2] ∧
      (∃ t1 pc1, plainParser.Close idleCollaborators ruleAttachedTree 2 ruleReader
          titleOpenedContext = .returned (t1, pc1) ∧
        (t1.node 0).children = [1, 3] ∧
        (t1.node 2).parent = none ∧
        (t1.node 3).kind = .Paragraph ∧
        (t1.node 3).lines = [{ Start := 1, Stop := 5 }] ∧
        (t1.node 3).parent = some 0) ∧
      text.Segment.Value { Start := 1, Stop := 5 } ruleSource =
        .returned [45, 45, 45, 10] := by
  refine ⟨rfl, rfl, ?_, by decide⟩
  obtain ⟨t1, pc1, _, h, _, hp, hk, hl, hpp, hpos, _⟩ :=
    (C11_empty_paragraph_close plainParser idleCollaborators ruleAttachedTree 2 ruleReader
      titleOpenedContext 1 0 { Start := 1, Stop := 5 } { Start := 1, Stop := 5 } [] 2 rfl rfl rfl
      rfl rfl rfl (by decide)).2 (Or.inl rfl) (by decide) (by decide)
  exact ⟨t1, pc1, h rfl rfl, hpos [1] [] rfl (by decide) (by decide), hp, hk, hl, hpp⟩

/-! ## Theorems: the last line after the attribute step -/

/-- Claim C12. The last line after Close keeps its trailing whitespace: on the
input `Title {#custom-id}` over the bar `===`, with attribute parsing enabled
and the attribute tokens starting at offset 7, Close returns and the single
line of the heading is the segment from 0 to 6. It keeps its Start and excludes
the attribute block with its opening brace, but its text is `Title` followed
by a space: the trimmed segment from 0 to 5, which the call of TrimRightSpace
on line 109 computes, is not the one that line 110 stores. -/
theorem C12_last_line_keeps_trailing_space :
    (customAttachedTree.node 1).lines = [{ Start := 0, Stop := 18 }] ∧
      text.Segment.Value { Start := 0, Stop := 18 } customSource = .returned
        [84, 105, 116, 108, 101, 32, 123, 35, 99, 117, 115, 116, 111, 109, 45, 105, 100, 125] ∧
      (∃ t1 pc1, attributeParser.Close offsetSevenCollaborators customAttachedTree 2 customReader
          titleOpenedContext = .returned (t1, pc1) ∧
        (t1.node 2).lines = [{ Start := 0, Stop := 6 }]) ∧
      text.Segment.Value { Start := 0, Stop := 6 } customSource =
        .returned [84, 105, 116, 108, 101, 32] ∧
      text.Segment.TrimRightSpace { Start := 0, Stop := 6 } customSource =
        .returned { Start := 0, Stop := 5 } ∧
      text.Segment.Value { Start := 0, Stop := 5 } customSource =
        .returned [84, 105, 116, 108, 101] :=
  ⟨rfl, by decide, ⟨_, _, rfl, rfl⟩, by decide, by decide, by decide⟩

/-! ## Theorems: the auto-ID step of Close -/

/-- The steps of Close before the auto-ID step do not depend on the generator. -/
theorem closeBeforeAutoID_generator (b : parser.setextHeadingParser) (ext : parser.Collaborators)
    (gen2 : ast.NodeRef → text.Reader → ast.Tree × parser.Context → ast.Tree × parser.Context)
    (t : ast.Tree) (node : ast.NodeRef) (reader : text.Reader) (pc : parser.Context) :
    b.closeBeforeAutoID { ext with generateAutoHeadingID := gen2 } t node reader pc =
      b.closeBeforeAutoID ext t node reader pc := rfl

/-- Claim C16. When the steps of Close before the auto-ID step return the tree
`t1`: with auto-ID enabled and no `id` attribute on the heading in `t1`, Close
returns what the generator makes of `t1`; with auto-ID enabled and an `id`
attribute on the heading, Close returns `t1` itself, so the id is unchanged,
whatever the generator is; with auto-ID disabled, Close returns `t1` itself
whatever the generator is. -/
theorem C16_auto_id_generation (b : parser.setextHeadingParser) (ext : parser.Collaborators)
    (t : ast.Tree) (node : ast.NodeRef) (reader : text.Reader) (pc : parser.Context)
    (t1 : ast.Tree) (pc1 : parser.Context)
    (hbefore : b.closeBeforeAutoID ext t node reader pc = .returned (t1, pc1)) :
    (b.AutoHeadingID = true → ast.getAttr (t1.node node).attributes parser.idName = none →
      ∀ gen2, b.Close { ext with generateAutoHeadingID := gen2 } t node reader pc =
        .returned (gen2 node reader (t1, pc1))) ∧
    (b.AutoHeadingID = true →
      ∀ v, ast.getAttr (t1.node node).attributes parser.idName = some v →
        ∀ gen2, b.Close { ext with generateAutoHeadingID := gen2 } t node reader pc =
          .returned (t1, pc1)) ∧
    (b.AutoHeadingID = false →
      ∀ gen2, b.Close { ext with generateAutoHeadingID := gen2 } t node reader pc =
        .returned (t1, pc1)) := by
  refine ⟨?_, ?_, ?_⟩
  · intro hI hid gen2
    rw [Close_split, closeBeforeAutoID_generator, hbefore]
    simp [hI, parser.setextHeadingParser.closeAutoID, hid]
  · intro hI v hid gen2
    rw [Close_split, closeBeforeAutoID_generator, hbefore]
    simp [hI, parser.setextHeadingParser.closeAutoID, hid]
  · intro hI gen2
    rw [Close_split, closeBeforeAutoID_generator, hbefore]
    simp [hI]

/-- The claim C16 on the input `Title {#custom-id}` over the bar `===` with
attribute parsing and auto-ID enabled: the attribute step sets the id
`custom-id`, and Close keeps it although the generator at hand would set the
id `a`. -/
theorem C16_auto_id_generation_witness :
    ∃ t1 pc1, fullParser.Close idCollaborators customAttachedTree 2 customReader
        titleOpenedContext = .returned (t1, pc1) ∧
      ast.getAttr (t1.node 2).attributes parser.idName =
        some [99, 117, 115, 116, 111, 109, 45, 105, 100] ∧
      ast.getAttr ((markingGenerator 2 customReader (t1, pc1)).1.node 2).attributes
        parser.idName = some [97] :=
  ⟨_, _,
    (C16_auto_id_generation fullParser idCollaborators customAttachedTree 2 customReader
      titleOpenedContext _ _ rfl).2.1 rfl [99, 117, 115, 116, 111, 109, 45, 105, 100] rfl
      markingGenerator,
    rfl, rfl⟩

/-! ## Theorems: Close with attribute parsing on a stashed paragraph without lines -/

/-- Claim C19. Close does not run to completion on every heading returned by
Open: on the input `"\n---\n"` the paragraph before the bar has no lines, Open
returns the level 2 heading 2 with the context that stashes that paragraph,
and with attribute parsing enabled Close on this heading panics with an index
out of range, whatever the tokenizer and the generator are. The block step returns and leaves the heading with no lines, so
the attribute step reads its line collection at the index -1. With attribute
parsing disabled the same call returns. -/
theorem C19_close_reads_out_of_range :
    attributeParser.Open emptyParagraphTree (some 0) ruleReader titleContext = .returned
        { node := some 2, state := .NoChildren,
          tree := (emptyParagraphTree.NewHeading 2).1.AppendLine 2 { Start := 1, Stop := 5 },
          pc := titleOpenedContext } ∧
      ruleAttachedTree =
        ((emptyParagraphTree.NewHeading 2).1.AppendLine 2 { Start := 1, Stop := 5 }).InsertAfter
          0 1 2 ∧
      (∃ t0 pc0, parser.setextHeadingParser.closeBlock ruleAttachedTree 2 ruleReader
          titleOpenedContext = .returned (t0, pc0) ∧
        (t0.node 2).lines = [] ∧
        goIndex (t0.node 2).lines (((t0.node 2).lines.length : Int) - 1) =
          .panicked .indexOutOfRange) ∧
      (∀ ext, attributeParser.Close ext ruleAttachedTree 2 ruleReader titleOpenedContext =
        .panicked .indexOutOfRange) ∧
      (∀ ext, fullParser.Close ext ruleAttachedTree 2 ruleReader titleOpenedContext =
        .panicked .indexOutOfRange) ∧
      (∃ tp, plainParser.Close idleCollaborators ruleAttachedTree 2 ruleReader
        titleOpenedContext = .returned tp) :=
  ⟨rfl, rfl, ⟨_, _, rfl, rfl, rfl⟩, fun _ => rfl, fun _ => rfl, ⟨_, rfl⟩⟩
